import Mathlib

/-!
# Verification of the spool event-sourcing core

Shallow embedding of the spool task tracker (Rust) in Lean 4:
the replay/materialization engine (`crates/spool/src/state.rs`),
the streaming validator (`crates/spool/src/validation.rs`),
the archival engine (`src/archive.rs`) and the optimistic-concurrency
write protocol (`src/concurrency.rs`).

Timestamps (`chrono::DateTime<Utc>`) are modelled as `Int` seconds since
the Unix epoch; JSON payloads (`serde_json::Value`) as the inductive
`Json`; Rust `HashMap<String, _>` as association lists whose operations
(`mapFind?`, `mapInsert`, `mapModify`, `mapErase`) mirror the used part
of the `HashMap` API (insertion order is a deterministic refinement of
the unspecified iteration order).
-/

/-- Model of `serde_json::Value`. Numbers are modelled as integers
(no claim under verification depends on float payloads). -/
inductive Json where
  | null : Json
  | bool (b : Bool) : Json
  | num (n : Int) : Json
  | str (s : String) : Json
  | arr (elts : List Json) : Json
  | obj (fields : List (String × Json)) : Json
deriving Repr

/-- `Value::get(key)` on an object (first binding wins, as in a map);
`None` on any non-object. -/
def Json.get : Json → String → Option Json
  | .obj fields, key => fields.lookup key
  | _, _ => none

/-- `Value::as_str`. -/
def Json.asStr : Json → Option String
  | .str s => some s
  | _ => none

/-- `Value::as_array`. -/
def Json.asArr : Json → Option (List Json)
  | .arr elts => some elts
  | _ => none

/-- `Value::as_u64`: integral non-negative numbers only. -/
def Json.asU64 : Json → Option Nat
  | .num n => if 0 ≤ n then some n.toNat else none
  | _ => none

/-- `Value::is_null`. -/
def Json.isNull : Json → Bool
  | .null => true
  | _ => false

/-- The closed operation set of the spool crate's `Operation` enum
(the exhaustive `match` in `state.rs:apply_event` lists all 13 variants;
serde names are `snake_case`). -/
inductive Operation where
  | create | update | assign | comment | link | unlink
  | complete | reopen | archive
  | setStream | createStream | updateStream | deleteStream
deriving DecidableEq, Repr

/-- The serde `snake_case` wire name of each operation. -/
def Operation.wireName : Operation → String
  | .create => "create"
  | .update => "update"
  | .assign => "assign"
  | .comment => "comment"
  | .link => "link"
  | .unlink => "unlink"
  | .complete => "complete"
  | .reopen => "reopen"
  | .archive => "archive"
  | .setStream => "set_stream"
  | .createStream => "create_stream"
  | .updateStream => "update_stream"
  | .deleteStream => "delete_stream"

/-- `Event` (`event.rs`): `{v, op, id, ts, by, branch, d}`. `by` is a Lean
keyword, hence the field name `author`. -/
structure Event where
  v : Nat
  op : Operation
  id : String
  ts : Int
  author : String
  branch : String
  d : Json
deriving Repr

/-- `TaskStatus` (`state.rs`). -/
inductive TaskStatus where
  | open_ | complete
deriving DecidableEq, Repr

/-- `Comment` (`state.rs`): `{ts, by, body, ref}`. -/
structure Comment where
  ts : Int
  author : String
  body : String
  ref : Option String
deriving DecidableEq, Repr

/-- `SpoolTask` (`state.rs`). -/
structure SpoolTask where
  id : String
  title : String
  description : Option String
  status : TaskStatus
  priority : Option String
  tags : List String
  assignee : Option String
  stream : Option String
  created : Int
  created_by : String
  created_branch : String
  updated : Int
  completed : Option Int
  resolution : Option String
  parent : Option String
  blocks : List String
  blocked_by : List String
  comments : List Comment
  archived : Option String
deriving DecidableEq, Repr

/-- `SpoolStream` (`state.rs`). -/
structure SpoolStream where
  id : String
  name : String
  description : Option String
  created : Int
  created_by : String
deriving DecidableEq, Repr

/-- Model of `HashMap<String, α>` as an association list. -/
abbrev SMap (α : Type) := List (String × α)

/-- `HashMap::get` / `get_mut` lookup: the unique binding for a key
(bindings are kept unique by `mapInsert`/`mapErase`). -/
def mapFind? {α : Type} : SMap α → String → Option α
  | [], _ => none
  | (k, v) :: rest, key => if k = key then some v else mapFind? rest key

/-- `HashMap::insert`: replaces an existing binding in place, else appends. -/
def mapInsert {α : Type} : SMap α → String → α → SMap α
  | [], key, v => [(key, v)]
  | (k, w) :: rest, key, v =>
      if k = key then (k, v) :: rest else (k, w) :: mapInsert rest key v

/-- The `if let Some(x) = map.get_mut(key) { mutate x }` pattern:
apply `f` at the binding for `key`, no-op when absent. -/
def mapModify {α : Type} : SMap α → String → (α → α) → SMap α
  | [], _, _ => []
  | (k, v) :: rest, key, f =>
      if k = key then (k, f v) :: rest else (k, v) :: mapModify rest key f

/-- `HashMap::remove` (value discarded). -/
def mapErase {α : Type} : SMap α → String → SMap α
  | [], _ => []
  | (k, v) :: rest, key =>
      if k = key then rest else (k, v) :: mapErase rest key

/-- The `d.get(k).and_then(as_array).map(collect filter_map as_str)
.unwrap_or_default()` pattern of `apply_event`'s Create arm. -/
def strListField (d : Json) (key : String) : List String :=
  match (d.get key).bind Json.asArr with
  | some elts => elts.filterMap Json.asStr
  | none => []

/-- The `d.get(k).and_then(as_str).map(String::from)` pattern. -/
def strField (d : Json) (key : String) : Option String :=
  (d.get key).bind Json.asStr

/-- The Create arm of `apply_event`: the `SpoolTask` literal built from the
event (`state.rs` lines 138–193). -/
def taskFromCreate (e : Event) : SpoolTask :=
  { id := e.id
    title := (strField e.d "title").getD ""
    description := strField e.d "description"
    status := .open_
    priority := strField e.d "priority"
    tags := strListField e.d "tags"
    assignee := strField e.d "assignee"
    created := e.ts
    created_by := e.author
    created_branch := e.branch
    updated := e.ts
    completed := none
    resolution := none
    parent := strField e.d "parent"
    blocks := strListField e.d "blocks"
    blocked_by := strListField e.d "blocked_by"
    comments := []
    archived := none
    stream := strField e.d "stream" }

/-- The Update arm: merge only present string/array fields, stamp `updated`. -/
def applyUpdate (d : Json) (ts : Int) (t : SpoolTask) : SpoolTask :=
  let t := match strField d "title" with
    | some title => { t with title := title }
    | none => t
  let t := match strField d "description" with
    | some desc => { t with description := some desc }
    | none => t
  let t := match strField d "priority" with
    | some priority => { t with priority := some priority }
    | none => t
  let t := match (d.get "tags").bind Json.asArr with
    | some tags => { t with tags := tags.filterMap Json.asStr }
    | none => t
  { t with updated := ts }

/-- The Assign arm: `d.to`, explicit null clears the assignee. -/
def applyAssign (d : Json) (ts : Int) (t : SpoolTask) : SpoolTask :=
  { t with
    assignee := (d.get "to").bind fun v =>
      if v.isNull then none else v.asStr
    updated := ts }

/-- The Comment arm: append `{ts, by, body, ref}`. -/
def applyComment (e : Event) (t : SpoolTask) : SpoolTask :=
  { t with
    comments := t.comments ++
      [{ ts := e.ts
         author := e.author
         body := ((e.d.get "body").bind Json.asStr).getD ""
         ref := strField e.d "ref" }]
    updated := e.ts }

/-- The Link arm: de-duplicated push on `blocks`/`blocked_by`, overwrite
on `parent`, unknown relations ignored; always stamps `updated`. -/
def applyLink (d : Json) (ts : Int) (t : SpoolTask) : SpoolTask :=
  let t := match strField d "rel", strField d "target" with
    | some rel, some target =>
        if rel = "blocks" then
          if t.blocks.contains target then t
          else { t with blocks := t.blocks ++ [target] }
        else if rel = "blocked_by" then
          if t.blocked_by.contains target then t
          else { t with blocked_by := t.blocked_by ++ [target] }
        else if rel = "parent" then { t with parent := some target }
        else t
    | _, _ => t
  { t with updated := ts }

/-- The Unlink arm: `retain` drops every match on `blocks`/`blocked_by`;
`parent` is cleared only when it equals the target. -/
def applyUnlink (d : Json) (ts : Int) (t : SpoolTask) : SpoolTask :=
  let t := match strField d "rel", strField d "target" with
    | some rel, some target =>
        if rel = "blocks" then
          { t with blocks := t.blocks.filter (fun x => x ≠ target) }
        else if rel = "blocked_by" then
          { t with blocked_by := t.blocked_by.filter (fun x => x ≠ target) }
        else if rel = "parent" then
          if t.parent = some target then { t with parent := none } else t
        else t
    | _, _ => t
  { t with updated := ts }

/-- The Complete arm: `resolution` falls back to `"done"`. -/
def applyComplete (d : Json) (ts : Int) (t : SpoolTask) : SpoolTask :=
  { t with
    status := .complete
    completed := some ts
    resolution := (strField d "resolution").orElse fun _ => some "done"
    updated := ts }

/-- The Reopen arm: clears `completed` and `resolution`. -/
def applyReopen (ts : Int) (t : SpoolTask) : SpoolTask :=
  { t with status := .open_, completed := none, resolution := none
           updated := ts }

/-- The Archive arm: `archived := d.ref`. -/
def applyArchive (d : Json) (ts : Int) (t : SpoolTask) : SpoolTask :=
  { t with archived := strField d "ref", updated := ts }

/-- The SetStream arm: `d.stream`, explicit null clears. -/
def applySetStream (d : Json) (ts : Int) (t : SpoolTask) : SpoolTask :=
  { t with
    stream := (d.get "stream").bind fun v =>
      if v.isNull then none else v.asStr
    updated := ts }

/-- The CreateStream arm: the `SpoolStream` literal built from the event. -/
def streamFromCreate (e : Event) : SpoolStream :=
  { id := e.id
    name := ((e.d.get "name").bind Json.asStr).getD ""
    description := strField e.d "description"
    created := e.ts
    created_by := e.author }

/-- The UpdateStream arm: merge present `name`/`description`. -/
def applyUpdateStream (d : Json) (s : SpoolStream) : SpoolStream :=
  let s := match strField d "name" with
    | some name => { s with name := name }
    | none => s
  match strField d "description" with
  | some desc => { s with description := some desc }
  | none => s

/-- `apply_event` (`state.rs` lines 132–365): one event folded into the
`tasks` and `streams` maps. Total by construction — no payload shape can
make it fail. -/
def apply_event (tasks : SMap SpoolTask) (streams : SMap SpoolStream) (e : Event) :
    SMap SpoolTask × SMap SpoolStream :=
  match e.op with
  | .create => (mapInsert tasks e.id (taskFromCreate e), streams)
  | .update => (mapModify tasks e.id (applyUpdate e.d e.ts), streams)
  | .assign => (mapModify tasks e.id (applyAssign e.d e.ts), streams)
  | .comment => (mapModify tasks e.id (applyComment e), streams)
  | .link => (mapModify tasks e.id (applyLink e.d e.ts), streams)
  | .unlink => (mapModify tasks e.id (applyUnlink e.d e.ts), streams)
  | .complete => (mapModify tasks e.id (applyComplete e.d e.ts), streams)
  | .reopen => (mapModify tasks e.id (applyReopen e.ts), streams)
  | .archive => (mapModify tasks e.id (applyArchive e.d e.ts), streams)
  | .setStream => (mapModify tasks e.id (applySetStream e.d e.ts), streams)
  | .createStream => (tasks, mapInsert streams e.id (streamFromCreate e))
  | .updateStream => (tasks, mapModify streams e.id (applyUpdateStream e.d))
  | .deleteStream => (tasks, mapErase streams e.id)

/-- `apply_events`: fold a file's events into the two maps. -/
def apply_events (maps : SMap SpoolTask × SMap SpoolStream) (events : List Event) :
    SMap SpoolTask × SMap SpoolStream :=
  events.foldl (fun p e => apply_event p.1 p.2 e) maps

/-- `State` (`state.rs`). -/
structure State where
  tasks : SMap SpoolTask
  streams : SMap SpoolStream
  rebuilt : Int
deriving Repr

/-- One step of a stable insertion sort: insert `x` before the first
element it compares `le` to. -/
def insertSortedBy {α : Type} (le : α → α → Bool) (x : α) :
    List α → List α
  | [] => [x]
  | y :: rest => if le x y then x :: y :: rest else y :: insertSortedBy le x rest

/-- Stable comparison sort (model of Rust's stable `sort`/`sort_by_key`:
any two stable sorts agree, so insertion sort is a faithful,
kernel-computable model). -/
def sortListBy {α : Type} (le : α → α → Bool) (l : List α) : List α :=
  l.foldr (insertSortedBy le) []

/-- A log directory: files as `(filename, events)` bindings with unique
names; `get_event_files`/`get_archive_files` sort the listing by name. -/
def sortFiles (files : List (String × List Event)) :
    List (String × List Event) :=
  sortListBy (fun a b => a.1 ≤ b.1) files

/-- The store seen by `materialize`: the archive directory and the events
directory, each a set of `.jsonl` files already parsed into events
(`parse_events_from_file` is fail-fast, so a readable store is exactly a
list of event lists). -/
structure SpoolStore where
  archives : List (String × List Event)
  dailies : List (String × List Event)
deriving Repr

/-- The full ordered replay sequence: archive files (sorted by name)
first, then daily files (sorted by name), line order within a file. -/
def allEvents (s : SpoolStore) : List Event :=
  ((sortFiles s.archives).map Prod.snd).flatten ++
    ((sortFiles s.dailies).map Prod.snd).flatten

/-- `materialize` (`state.rs` lines 99–120): fold `apply_event` from
empty maps over archive files then daily files; `rebuilt := Utc::now()`
is the only impure input, passed here as `now`. -/
def materialize (s : SpoolStore) (now : Int) : State :=
  let maps := apply_events ([], []) (allEvents s)
  { tasks := maps.1, streams := maps.2, rebuilt := now }

/-! ## Association-map lemmas -/

theorem mapFind?_mapInsert_self {α : Type} (m : SMap α) (k : String) (v : α) :
    mapFind? (mapInsert m k v) k = some v := by
  induction m with
  | nil => simp [mapInsert, mapFind?]
  | cons hd rest ih =>
      obtain ⟨k', w⟩ := hd
      by_cases hk : k' = k <;> simp [mapInsert, mapFind?, hk, ih]

theorem mapFind?_mapModify_self {α : Type} (m : SMap α) (k : String)
    (f : α → α) : mapFind? (mapModify m k f) k = (mapFind? m k).map f := by
  induction m with
  | nil => simp [mapModify, mapFind?]
  | cons hd rest ih =>
      obtain ⟨k', w⟩ := hd
      by_cases hk : k' = k <;> simp [mapModify, mapFind?, hk, ih]

theorem mapFind?_mapModify_ne {α : Type} (m : SMap α) (k k' : String)
    (f : α → α) (h : k ≠ k') :
    mapFind? (mapModify m k f) k' = mapFind? m k' := by
  induction m with
  | nil => simp [mapModify, mapFind?]
  | cons hd rest ih =>
      obtain ⟨k'', w⟩ := hd
      by_cases hk : k'' = k
      · subst hk
        simp [mapModify, mapFind?, h]
      · simp [mapModify, mapFind?, hk, ih]

theorem mapModify_of_find?_none {α : Type} (m : SMap α) (k : String)
    (f : α → α) (h : mapFind? m k = none) : mapModify m k f = m := by
  induction m with
  | nil => simp [mapModify]
  | cons hd rest ih =>
      obtain ⟨k', w⟩ := hd
      by_cases hk : k' = k
      · simp [mapFind?, hk] at h
      · simp [mapFind?, hk] at h
        simp [mapModify, hk, ih h]

theorem mapErase_of_find?_none {α : Type} (m : SMap α) (k : String)
    (h : mapFind? m k = none) : mapErase m k = m := by
  induction m with
  | nil => simp [mapErase]
  | cons hd rest ih =>
      obtain ⟨k', w⟩ := hd
      by_cases hk : k' = k
      · simp [mapFind?, hk] at h
      · simp [mapFind?, hk] at h
        simp [mapErase, hk, ih h]

theorem mapModify_mapModify_self {α : Type} (m : SMap α) (k : String)
    (f g : α → α) :
    mapModify (mapModify m k f) k g = mapModify m k (fun v => g (f v)) := by
  induction m with
  | nil => simp [mapModify]
  | cons hd rest ih =>
      obtain ⟨k', w⟩ := hd
      by_cases hk : k' = k <;> simp [mapModify, hk, ih]

/-! ## C1 — determinism of materialization -/

/-- C1: `materialize` is the fold of `apply_event` from empty maps over
the ordered archive-then-daily event sequence; running it twice over the
same store yields identical `tasks` and `streams` maps, whatever the two
`rebuilt` timestamps are — the result is a deterministic function of the
ordered input events. -/
theorem materialize_deterministic (s : SpoolStore) (now₁ now₂ : Int) :
    (materialize s now₁).tasks = (materialize s now₂).tasks ∧
    (materialize s now₁).streams = (materialize s now₂).streams ∧
    (materialize s now₁).tasks = (apply_events ([], []) (allEvents s)).1 ∧
    (materialize s now₁).streams = (apply_events ([], []) (allEvents s)).2 :=
  ⟨rfl, rfl, rfl, rfl⟩

/-! ## C5 — the Complete/Reopen status machine -/

/-- C5: replaying Complete, Reopen, Complete over an existing task leaves
`status = Complete` with `completed` and `resolution` taken only from the
latest Complete event (`resolution` defaulting to `"done"` when absent
from the payload); and replaying Reopen over an existing task always sets
`status = Open` and clears both `completed` and `resolution`. -/
theorem complete_reopen_complete
    (tasks : SMap SpoolTask) (streams : SMap SpoolStream)
    (id : String) (t₀ : SpoolTask)
    (hmem : mapFind? tasks id = some t₀)
    (e₁ e₂ e₃ : Event)
    (h₁ : e₁.op = .complete) (h₁id : e₁.id = id)
    (h₂ : e₂.op = .reopen) (h₂id : e₂.id = id)
    (h₃ : e₃.op = .complete) (h₃id : e₃.id = id) :
    (let m₁ := apply_event tasks streams e₁
     let m₂ := apply_event m₁.1 m₁.2 e₂
     let m₃ := apply_event m₂.1 m₂.2 e₃
     ∃ t, mapFind? m₃.1 id = some t ∧
       t.status = .complete ∧
       t.completed = some e₃.ts ∧
       t.resolution = some ((strField e₃.d "resolution").getD "done")) ∧
    (∀ e : Event, e.op = .reopen → e.id = id →
      ∃ t, mapFind? (apply_event tasks streams e).1 id = some t ∧
        t.status = .open_ ∧ t.completed = none ∧ t.resolution = none) := by
  constructor
  · simp only [apply_event, h₁, h₂, h₃, h₁id, h₂id, h₃id,
      mapFind?_mapModify_self, hmem, Option.map_some]
    refine ⟨_, rfl, ?_, ?_, ?_⟩
    · rfl
    · rfl
    · simp only [applyComplete]
      cases hres : strField e₃.d "resolution" <;>
        simp [Option.orElse, hres]
  · intro e he heid
    simp only [apply_event, he, heid, mapFind?_mapModify_self, hmem,
      Option.map_some]
    exact ⟨_, rfl, rfl, rfl, rfl⟩

/-- Witness for C5 at a concrete store: one task created at id `"t1"`,
then Complete/Reopen/Complete with an explicit `resolution` only on the
last Complete. -/
theorem complete_reopen_complete_witness :
    (let tasks := [("t1", taskFromCreate
        ⟨1, .create, "t1", 0, "@a", "main", Json.obj []⟩)]
     let streams : SMap SpoolStream := []
     let e₁ : Event := ⟨1, .complete, "t1", 10, "@a", "main", Json.obj []⟩
     let e₂ : Event := ⟨1, .reopen, "t1", 20, "@a", "main", Json.obj []⟩
     let e₃ : Event := ⟨1, .complete, "t1", 30, "@a", "main",
        Json.obj [("resolution", Json.str "fixed")]⟩
     (let m₁ := apply_event tasks streams e₁
      let m₂ := apply_event m₁.1 m₁.2 e₂
      let m₃ := apply_event m₂.1 m₂.2 e₃
      ∃ t, mapFind? m₃.1 "t1" = some t ∧
        t.status = .complete ∧
        t.completed = some e₃.ts ∧
        t.resolution = some ((strField e₃.d "resolution").getD "done")) ∧
     (∀ e : Event, e.op = .reopen → e.id = "t1" →
       ∃ t, mapFind? (apply_event tasks streams e).1 "t1" = some t ∧
         t.status = .open_ ∧ t.completed = none ∧ t.resolution = none)) :=
  complete_reopen_complete
    [("t1", taskFromCreate ⟨1, .create, "t1", 0, "@a", "main", Json.obj []⟩)]
    [] "t1"
    (taskFromCreate ⟨1, .create, "t1", 0, "@a", "main", Json.obj []⟩)
    rfl
    ⟨1, .complete, "t1", 10, "@a", "main", Json.obj []⟩
    ⟨1, .reopen, "t1", 20, "@a", "main", Json.obj []⟩
    ⟨1, .complete, "t1", 30, "@a", "main",
      Json.obj [("resolution", Json.str "fixed")]⟩
    rfl rfl rfl rfl rfl rfl

/-! ## C6 — unknown-target events are a silent no-op -/

/-- The two non-Create operations that target the `streams` map; every
other non-Create operation targets the `tasks` map. -/
def targetsStreams : Operation → Bool
  | .updateStream | .deleteStream => true
  | _ => false

/-- C6: an event whose operation targets an existing entity (any op other
than Create/CreateStream) but whose id is absent from the corresponding
map leaves the entire state — both maps — unchanged; `apply_event` is
total, so such events can never fail. -/
theorem unknown_target_noop (tasks : SMap SpoolTask)
    (streams : SMap SpoolStream) (e : Event)
    (hc : e.op ≠ .create) (hcs : e.op ≠ .createStream)
    (habs : if targetsStreams e.op then mapFind? streams e.id = none
            else mapFind? tasks e.id = none) :
    apply_event tasks streams e = (tasks, streams) := by
  cases hop : e.op <;>
    simp only [hop, targetsStreams, if_true, if_false] at habs <;>
    simp_all [apply_event, mapModify_of_find?_none, mapErase_of_find?_none]

/-- Witness for C6: an Update event for an id present in neither map. -/
theorem unknown_target_noop_witness :
    apply_event [("t1", taskFromCreate
        ⟨1, .create, "t1", 0, "@a", "main", Json.obj []⟩)] []
      ⟨1, .update, "ghost", 5, "@a", "main",
        Json.obj [("title", Json.str "x")]⟩ =
    ([("t1", taskFromCreate ⟨1, .create, "t1", 0, "@a", "main",
        Json.obj []⟩)], []) :=
  unknown_target_noop _ _ _ (by decide) (by decide) (by simp [targetsStreams, mapFind?])

/-! ## C10 — Create is total over arbitrary payloads -/

/-- C10: `apply_event` is total over arbitrary JSON payloads (it is a
Lean function, so replay never fails whatever the shape of `d`); a Create
whose payload lacks `title` (or whose `title` is not a string) produces a
task whose title is the empty string, and missing `tags`/`blocks`/
`blocked_by` arrays produce empty lists rather than errors. -/
theorem create_total_defaults (tasks : SMap SpoolTask)
    (streams : SMap SpoolStream) (e : Event) (he : e.op = .create) :
    ∃ task, mapFind? (apply_event tasks streams e).1 e.id = some task ∧
      (strField e.d "title" = none → task.title = "") ∧
      ((e.d.get "tags").bind Json.asArr = none → task.tags = []) ∧
      ((e.d.get "blocks").bind Json.asArr = none → task.blocks = []) ∧
      ((e.d.get "blocked_by").bind Json.asArr = none →
        task.blocked_by = []) := by
  refine ⟨taskFromCreate e, ?_, ?_, ?_, ?_, ?_⟩
  · simp [apply_event, he, mapFind?_mapInsert_self]
  · intro h
    simp [taskFromCreate, h]
  · intro h
    simp [taskFromCreate, strListField, h]
  · intro h
    simp [taskFromCreate, strListField, h]
  · intro h
    simp [taskFromCreate, strListField, h]

/-- Witness for C10: a Create whose payload is a bare number — every
field lookup misses, yet replay succeeds with all defaults. -/
theorem create_total_defaults_witness :
    ∃ task, mapFind? (apply_event [] []
        ⟨1, .create, "t9", 0, "@a", "main", Json.num 42⟩).1 "t9" =
          some task ∧
      (strField (Json.num 42) "title" = none → task.title = "") ∧
      (((Json.num 42).get "tags").bind Json.asArr = none →
        task.tags = []) ∧
      (((Json.num 42).get "blocks").bind Json.asArr = none →
        task.blocks = []) ∧
      (((Json.num 42).get "blocked_by").bind Json.asArr = none →
        task.blocked_by = []) :=
  create_total_defaults [] [] _ rfl

/-! ## C7 — Link is idempotent, Unlink removes all matches -/

theorem applyLink_idem (d : Json) (ts : Int) (t : SpoolTask) :
    applyLink d ts (applyLink d ts t) = applyLink d ts t := by
  unfold applyLink
  cases hr : strField d "rel" with
  | none => cases hg : strField d "target" <;> simp
  | some rel =>
    cases hg : strField d "target" with
    | none => simp
    | some target =>
      simp only
      by_cases hb : rel = "blocks"
      · simp only [hb, if_true]
        by_cases hc : target ∈ t.blocks <;> simp [hc]
      · by_cases hbb : rel = "blocked_by"
        · simp only [hb, hbb, if_false, if_true]
          by_cases hc : target ∈ t.blocked_by <;> simp [hb, hbb, hc]
        · by_cases hp : rel = "parent" <;> simp [hb, hbb, hp]

/-- C7: for an existing task, applying the same Link event twice yields
the same state as applying it once (`blocks`/`blocked_by` pushes are
de-duplicated, `parent` is overwritten); and Unlink removes every
occurrence of the target from the named relation (`blocks`/`blocked_by`),
or clears `parent` exactly when it equals the target. -/
theorem link_idempotent_unlink_removes
    (tasks : SMap SpoolTask) (streams : SMap SpoolStream)
    (id : String) (t₀ : SpoolTask)
    (hmem : mapFind? tasks id = some t₀) :
    (∀ e : Event, e.op = .link →
      apply_event (apply_event tasks streams e).1
          (apply_event tasks streams e).2 e =
        apply_event tasks streams e) ∧
    (∀ e : Event, ∀ g : String, e.op = .unlink → e.id = id →
      strField e.d "rel" = some "blocks" →
      strField e.d "target" = some g →
      mapFind? (apply_event tasks streams e).1 id =
        some { t₀ with blocks := t₀.blocks.filter (fun x => x ≠ g)
                       updated := e.ts }) ∧
    (∀ e : Event, ∀ g : String, e.op = .unlink → e.id = id →
      strField e.d "rel" = some "blocked_by" →
      strField e.d "target" = some g →
      mapFind? (apply_event tasks streams e).1 id =
        some { t₀ with blocked_by := t₀.blocked_by.filter (fun x => x ≠ g)
                       updated := e.ts }) ∧
    (∀ e : Event, ∀ g : String, e.op = .unlink → e.id = id →
      strField e.d "rel" = some "parent" →
      strField e.d "target" = some g →
      mapFind? (apply_event tasks streams e).1 id =
        some { t₀ with
               parent := if t₀.parent = some g then none else t₀.parent
               updated := e.ts }) := by
  refine ⟨?_, ?_, ?_, ?_⟩
  · intro e he
    simp only [apply_event, he, mapModify_mapModify_self]
    rw [show (fun v => applyLink e.d e.ts (applyLink e.d e.ts v)) =
        applyLink e.d e.ts from funext (applyLink_idem e.d e.ts)]
  · intro e g he heid hr hg
    simp only [apply_event, he, heid, mapFind?_mapModify_self, hmem,
      Option.map_some]
    simp [applyUnlink, hr, hg]
  · intro e g he heid hr hg
    simp only [apply_event, he, heid, mapFind?_mapModify_self, hmem,
      Option.map_some]
    simp [applyUnlink, hr, hg]
  · intro e g he heid hr hg
    simp only [apply_event, he, heid, mapFind?_mapModify_self, hmem,
      Option.map_some]
    by_cases hp : t₀.parent = some g <;> simp [applyUnlink, hr, hg, hp]

/-- Witness for C7: the concrete Link/Unlink events on a one-task store;
the Unlink target `"t2"` occurs twice in `blocks` and both occurrences go. -/
theorem link_idempotent_unlink_removes_witness :
    (∀ e : Event, e.op = .link →
      apply_event (apply_event
          [("t1", { taskFromCreate ⟨1, .create, "t1", 0, "@a", "main",
              Json.obj []⟩ with blocks := ["t2", "t3", "t2"] })] [] e).1
        (apply_event
          [("t1", { taskFromCreate ⟨1, .create, "t1", 0, "@a", "main",
              Json.obj []⟩ with blocks := ["t2", "t3", "t2"] })] [] e).2 e =
      apply_event
        [("t1", { taskFromCreate ⟨1, .create, "t1", 0, "@a", "main",
            Json.obj []⟩ with blocks := ["t2", "t3", "t2"] })] [] e) ∧
    (∀ e : Event, ∀ g : String, e.op = .unlink → e.id = "t1" →
      strField e.d "rel" = some "blocks" →
      strField e.d "target" = some g →
      mapFind? (apply_event
          [("t1", { taskFromCreate ⟨1, .create, "t1", 0, "@a", "main",
              Json.obj []⟩ with blocks := ["t2", "t3", "t2"] })] [] e).1
          "t1" =
        some { { taskFromCreate ⟨1, .create, "t1", 0, "@a", "main",
                  Json.obj []⟩ with blocks := ["t2", "t3", "t2"] } with
               blocks := (["t2", "t3", "t2"].filter (fun x => x ≠ g))
               updated := e.ts }) ∧
    (∀ e : Event, ∀ g : String, e.op = .unlink → e.id = "t1" →
      strField e.d "rel" = some "blocked_by" →
      strField e.d "target" = some g →
      mapFind? (apply_event
          [("t1", { taskFromCreate ⟨1, .create, "t1", 0, "@a", "main",
              Json.obj []⟩ with blocks := ["t2", "t3", "t2"] })] [] e).1
          "t1" =
        some { { taskFromCreate ⟨1, .create, "t1", 0, "@a", "main",
                  Json.obj []⟩ with blocks := ["t2", "t3", "t2"] } with
               blocked_by := List.filter (fun x => x ≠ g) []
               updated := e.ts }) ∧
    (∀ e : Event, ∀ g : String, e.op = .unlink → e.id = "t1" →
      strField e.d "rel" = some "parent" →
      strField e.d "target" = some g →
      mapFind? (apply_event
          [("t1", { taskFromCreate ⟨1, .create, "t1", 0, "@a", "main",
              Json.obj []⟩ with blocks := ["t2", "t3", "t2"] })] [] e).1
          "t1" =
        some { { taskFromCreate ⟨1, .create, "t1", 0, "@a", "main",
                  Json.obj []⟩ with blocks := ["t2", "t3", "t2"] } with
               parent := if (taskFromCreate ⟨1, .create, "t1", 0, "@a",
                  "main", Json.obj []⟩).parent = some g then none
                 else (taskFromCreate ⟨1, .create, "t1", 0, "@a", "main",
                  Json.obj []⟩).parent
               updated := e.ts }) :=
  link_idempotent_unlink_removes
    [("t1", { taskFromCreate ⟨1, .create, "t1", 0, "@a", "main",
        Json.obj []⟩ with blocks := ["t2", "t3", "t2"] })] [] "t1"
    { taskFromCreate ⟨1, .create, "t1", 0, "@a", "main", Json.obj []⟩ with
      blocks := ["t2", "t3", "t2"] }
    rfl

/-! ## Calendar formatting (chrono) -/

/-- Left-pad a decimal rendering with zeros to width `w`. -/
def padZeros (w : Nat) (n : Nat) : String :=
  let s := toString n
  if s.length < w then String.mk (List.replicate (w - s.length) '0') ++ s
  else s

/-- Civil date from a day count since 1970-01-01 (proleptic Gregorian,
Howard Hinnant's algorithm, floor-division variant) — the calendar model
behind chrono's `%Y-%m-%d` / `%Y-%m` formatting. Returns
`(year, month, day)`. -/
def civilFromDays (z : Int) : Int × Nat × Nat :=
  let z := z + 719468
  let era := z.fdiv 146097
  let doe := (z - era * 146097).toNat
  let yoe := (doe - doe / 1460 + doe / 36524 - doe / 146096) / 365
  let doy := doe - (365 * yoe + yoe / 4 - yoe / 100)
  let mp := (5 * doy + 2) / 153
  let d := doy - (153 * mp + 2) / 5 + 1
  let m := if mp < 10 then mp + 3 else mp - 9
  let y := era * 400 + yoe + (if m ≤ 2 then 1 else 0)
  (y, m, d)

/-- Day count since 1970-01-01 of a civil date (inverse of
`civilFromDays`). -/
def daysFromCivil (y : Int) (m : Nat) (d : Nat) : Int :=
  let y := y - (if m ≤ 2 then 1 else 0)
  let era := y.fdiv 400
  let yoe := (y - era * 400).toNat
  let doy := (153 * (if m > 2 then m - 3 else m + 9) + 2) / 5 + d - 1
  let doe := yoe * 365 + yoe / 4 - yoe / 100 + doy
  era * 146097 + (doe : Int) - 719468

/-- chrono `format("%Y-%m-%d")` of a timestamp. -/
def formatDay (t : Int) : String :=
  let c := civilFromDays (t.fdiv 86400)
  padZeros 4 c.1.toNat ++ "-" ++ padZeros 2 c.2.1 ++ "-" ++ padZeros 2 c.2.2

/-- chrono `format("%Y-%m")` of a timestamp. -/
def formatMonth (t : Int) : String :=
  let c := civilFromDays (t.fdiv 86400)
  padZeros 4 c.1.toNat ++ "-" ++ padZeros 2 c.2.1

/-- The serde rendering of a `DateTime<Utc>` (RFC 3339, `Z` suffix,
whole seconds — the granularity of this model). -/
def formatRfc3339 (t : Int) : String :=
  let rem := (t.emod 86400).toNat
  formatDay t ++ "T" ++ padZeros 2 (rem / 3600) ++ ":" ++
    padZeros 2 (rem / 60 % 60) ++ ":" ++ padZeros 2 (rem % 60) ++ "Z"

/-- Decimal digit value of a character, if any. -/
def digitVal (c : Char) : Option Nat :=
  if c.isDigit then some (c.toNat - 48) else none

/-- Model of `chrono::DateTime::parse_from_rfc3339`, restricted to the
canonical `YYYY-MM-DDTHH:MM:SSZ` shape this system writes (chrono also
accepts offsets and fractional seconds; no claim depends on those). -/
def parseRfc3339 (s : String) : Option Int :=
  match s.toList with
  | [y1, y2, y3, y4, '-', m1, m2, '-', d1, d2, 'T',
     h1, h2, ':', i1, i2, ':', s1, s2, 'Z'] => do
      let y ← do
        let a ← digitVal y1
        let b ← digitVal y2
        let c ← digitVal y3
        let d ← digitVal y4
        pure (a * 1000 + b * 100 + c * 10 + d)
      let mo ← do
        let a ← digitVal m1
        let b ← digitVal m2
        pure (a * 10 + b)
      let da ← do
        let a ← digitVal d1
        let b ← digitVal d2
        pure (a * 10 + b)
      let hh ← do
        let a ← digitVal h1
        let b ← digitVal h2
        pure (a * 10 + b)
      let mi ← do
        let a ← digitVal i1
        let b ← digitVal i2
        pure (a * 10 + b)
      let ss ← do
        let a ← digitVal s1
        let b ← digitVal s2
        pure (a * 10 + b)
      if 1 ≤ mo ∧ mo ≤ 12 ∧ 1 ≤ da ∧ da ≤ 31 ∧ hh < 24 ∧ mi < 60 ∧
          ss < 60 then
        some (daysFromCivil (y : Int) mo da * 86400 +
          (hh * 3600 + mi * 60 + ss : Nat))
      else none
  | _ => none

/-! ## JSON serialization (serde_json::to_string, compact form) -/

/-- serde_json's string escaping: `"`/`\` escaped, control characters as
the short escapes or `\u00XX`. -/
def escapeChar (c : Char) : List Char :=
  if c = '"' then ['\\', '"']
  else if c = '\\' then ['\\', '\\']
  else if c = '\n' then ['\\', 'n']
  else if c = '\t' then ['\\', 't']
  else if c = '\r' then ['\\', 'r']
  else if c.toNat = 8 then ['\\', 'b']
  else if c.toNat = 12 then ['\\', 'f']
  else if c.toNat < 32 then
    '\\' :: 'u' :: '0' :: '0' :: (Nat.toDigits 16 c.toNat)
  else [c]

/-- serde_json's rendering of a string literal. -/
def quoteString (s : String) : String :=
  "\"" ++ String.mk (s.toList.flatMap escapeChar) ++ "\""

mutual

/-- `serde_json::to_string`: compact rendering, object fields in order. -/
def jsonSerialize : Json → String
  | .null => "null"
  | .bool true => "true"
  | .bool false => "false"
  | .num n => toString n
  | .str s => quoteString s
  | .arr elts => "[" ++ jsonSerializeElts elts ++ "]"
  | .obj fields => "\x7b" ++ jsonSerializeFields fields ++ "\x7d"

def jsonSerializeElts : List Json → String
  | [] => ""
  | [j] => jsonSerialize j
  | j :: rest => jsonSerialize j ++ "," ++ jsonSerializeElts rest

def jsonSerializeFields : List (String × Json) → String
  | [] => ""
  | [(k, j)] => quoteString k ++ ":" ++ jsonSerialize j
  | (k, j) :: rest =>
      quoteString k ++ ":" ++ jsonSerialize j ++ "," ++
        jsonSerializeFields rest

end

/-- The serde view of an `Event`: fields in declaration order
`v, op, id, ts, by, branch, d`. -/
def eventToJson (e : Event) : Json :=
  .obj [("v", .num e.v), ("op", .str e.op.wireName), ("id", .str e.id),
        ("ts", .str (formatRfc3339 e.ts)), ("by", .str e.author),
        ("branch", .str e.branch), ("d", e.d)]

/-- `serde_json::to_string(&event)`. -/
def serializeEvent (e : Event) : String :=
  jsonSerialize (eventToJson e)

/-! ## Concurrency controller (`concurrency.rs`) -/

/-- `md5_hash` (`concurrency.rs` lines 215–222): not MD5 at all but a
custom `u128` wrapping fold over the UTF-8 bytes. -/
def md5_hash (input : String) : Nat :=
  input.toUTF8.toList.enum.foldl
    (fun hash p =>
      (hash + p.2.toNat * (p.1 + 1)) % 2 ^ 128 * 31 % 2 ^ 128)
    0

/-- `format("{:x}", hash)`: lowercase hex, no leading zeros. -/
def hexString (n : Nat) : String :=
  String.mk (Nat.toDigits 16 n)

/-- `Version` (`concurrency.rs`): `{seq, ts, last_event_hash}`. -/
structure Version where
  seq : Nat
  ts : String
  last_event_hash : String
deriving DecidableEq, Repr

/-- `WriteResult` (`concurrency.rs`). -/
inductive WriteResult where
  | success : WriteResult
  | conflict (expected_version actual_version : Version) : WriteResult
  | error (msg : String) : WriteResult
deriving DecidableEq, Repr

/-- `get_task_version`'s scan: event files in reverse chronological
order, last line first, first event whose id matches. -/
def lastEventFor (s : SpoolStore) (task_id : String) : Option Event :=
  (sortFiles s.dailies).reverse.findSome? fun f =>
    f.2.reverse.find? fun e => e.id = task_id

/-- `get_task_version` (`concurrency.rs` lines 91–123). The process-local
`SEQUENCE.fetch_add` counter is the impure input `seq`. -/
def get_task_version (s : SpoolStore) (seq : Nat) (task_id : String) :
    Option Version :=
  (lastEventFor s task_id).map fun e =>
    { seq := seq
      ts := formatRfc3339 e.ts
      last_event_hash := hexString (md5_hash (serializeEvent e)) }

/-- `open(create|append)` then `writeln`: append events to the named
file, creating it when absent. -/
def appendFile (files : List (String × List Event)) (name : String)
    (evs : List Event) : List (String × List Event) :=
  match files with
  | [] => [(name, evs)]
  | (n, es) :: rest =>
      if n = name then (n, es ++ evs) :: rest
      else (n, es) :: appendFile rest name evs

/-- Append to today's daily log (`events/YYYY-MM-DD.jsonl`). -/
def appendDaily (s : SpoolStore) (name : String) (evs : List Event) :
    SpoolStore :=
  { s with dailies := appendFile s.dailies name evs }

/-- `write_event_with_version` (`concurrency.rs` lines 126–184): under
the advisory lock (acquisition failure is an `anyhow` error outside
`WriteResult` and outside this model), recompute the current version,
run the four-way version check, and on fall-through append the event to
today's daily file. Returns the result and the store after the call. -/
def write_event_with_version (s : SpoolStore) (e : Event)
    (expected_version : Option Version) (seq : Nat) (now : Int) :
    WriteResult × SpoolStore :=
  let current_version := get_task_version s seq e.id
  let write := fun (_ : Unit) =>
    (WriteResult.success, appendDaily s (formatDay now ++ ".jsonl") [e])
  match expected_version, current_version with
  | some expected, some actual =>
      if expected.last_event_hash ≠ actual.last_event_hash then
        (.conflict expected actual, s)
      else write ()
  | some _, none =>
      if e.op ≠ .create then
        (.error "Task does not exist but expected version provided", s)
      else write ()
  | none, some _ =>
      if e.op = .create then (.error "Task already exists", s)
      else write ()
  | none, none =>
      if e.op ≠ .create then (.error "Task does not exist", s)
      else write ()

/-! ## C2 — the version-check special cases -/

/-- A store holding one daily file with a single Create for `"t1"`. -/
def cexCreateEvent : Event :=
  ⟨1, .create, "t1", 0, "@a", "main", Json.obj [("title", Json.str "T")]⟩

/-- An Update for the existing `"t1"`. -/
def cexUpdateEvent : Event :=
  ⟨1, .update, "t1", 100, "@b", "main", Json.obj [("title", Json.str "U")]⟩

/-- An Update for an id with no events at all. -/
def cexGhostEvent : Event :=
  ⟨1, .update, "ghost", 100, "@b", "main", Json.obj []⟩

def cexStore : SpoolStore :=
  ⟨[], [("1970-01-01.jsonl", [cexCreateEvent])]⟩

/-- C2 counterexample: a non-Create (`Update` for `"t1"`) supplied with
no expected version while a current version exists does NOT return the
claimed concurrent-creation `Error` — `write_event_with_version` falls
through the `(None, Some)` arm and appends the event (`Success`, one
more line in today's daily file). -/
theorem write_concurrent_creation_not_rejected :
    (write_event_with_version cexStore cexUpdateEvent none 0 100).1 =
      WriteResult.success ∧
    ((write_event_with_version cexStore cexUpdateEvent none 0 100).2.dailies.map
      fun f => (f.1, f.2.length)) = [("1970-01-01.jsonl", 2)] ∧
    (cexStore.dailies.map fun f => (f.1, f.2.length)) =
      [("1970-01-01.jsonl", 1)] :=
  ⟨rfl, rfl, rfl⟩

/-- C2 (amended): the special cases `write_event_with_version` actually
implements — a Create with no expected version when a current version
exists → `Error("Task already exists")`; a non-Create with an expected
version but no current version → `Error("Task does not exist but
expected version provided")`; a non-Create with neither expected nor
current version → `Error("Task does not exist")`; each error performs no
write. A non-Create with no expected version while a current version
exists is not rejected: it appends the event and returns `Success`
(the spec's concurrent-creation error is not implemented). -/
theorem write_event_with_version_cases (s : SpoolStore) (e : Event)
    (seq : Nat) (now : Int) :
    ((get_task_version s seq e.id).isSome = true → e.op = .create →
      write_event_with_version s e none seq now =
        (.error "Task already exists", s)) ∧
    (∀ exp : Version, get_task_version s seq e.id = none →
      e.op ≠ .create →
      write_event_with_version s e (some exp) seq now =
        (.error "Task does not exist but expected version provided", s)) ∧
    (get_task_version s seq e.id = none → e.op ≠ .create →
      write_event_with_version s e none seq now =
        (.error "Task does not exist", s)) ∧
    ((get_task_version s seq e.id).isSome = true → e.op ≠ .create →
      write_event_with_version s e none seq now =
        (.success, appendDaily s (formatDay now ++ ".jsonl") [e])) := by
  refine ⟨?_, ?_, ?_, ?_⟩
  · intro hv hop
    obtain ⟨v, hcv⟩ := Option.isSome_iff_exists.mp hv
    simp [write_event_with_version, hcv, hop]
  · intro exp hcv hop
    simp [write_event_with_version, hcv, hop]
  · intro hcv hop
    simp [write_event_with_version, hcv, hop]
  · intro hv hop
    obtain ⟨v, hcv⟩ := Option.isSome_iff_exists.mp hv
    simp [write_event_with_version, hcv, hop]

/-- Witness for the amended C2 at the concrete one-task store: all four
arms evaluated. -/
theorem write_event_with_version_cases_witness :
    write_event_with_version cexStore cexCreateEvent none 0 100 =
      (.error "Task already exists", cexStore) ∧
    write_event_with_version cexStore cexGhostEvent
        (some ⟨0, "", ""⟩) 0 100 =
      (.error "Task does not exist but expected version provided",
        cexStore) ∧
    write_event_with_version cexStore cexGhostEvent none 0 100 =
      (.error "Task does not exist", cexStore) ∧
    write_event_with_version cexStore cexUpdateEvent none 0 100 =
      (.success, appendDaily cexStore (formatDay 100 ++ ".jsonl")
        [cexUpdateEvent]) :=
  ⟨(write_event_with_version_cases cexStore cexCreateEvent 0 100).1
      rfl rfl,
   (write_event_with_version_cases cexStore cexGhostEvent 0 100).2.1
      ⟨0, "", ""⟩ rfl (by decide),
   (write_event_with_version_cases cexStore cexGhostEvent 0 100).2.2.1
      rfl (by decide),
   (write_event_with_version_cases cexStore cexUpdateEvent 0 100).2.2.2
      rfl (by decide)⟩

/-! ## C9 — the retry wrapper -/

/-- The loop body of `write_with_retry` (`concurrency.rs` lines
187–212). `attempt i` is the `WriteResult` of the `i`-th rebuilt
event+expected-version pair pushed through `write_event_with_version`
(an `anyhow`-level failure of either closure aborts the whole call via
`?` before producing a `WriteResult` and is outside this model).
`remaining = max_retries - retries` is the structural fuel; the returned
triple is (final result, number of invocations, sleep delays in ms). -/
def write_with_retry_go (attempt : Nat → WriteResult) :
    Nat → Nat → Nat → WriteResult × Nat × List Nat
  | 0, i, _ =>
      -- retries = max_retries: Success and Error return themselves, and
      -- the Conflict guard `retries < max_retries` fails, so the final
      -- Conflict is returned as `other` — in every case `attempt i`.
      (attempt i, i + 1, [])
  | remaining + 1, i, delay_ms =>
      match attempt i with
      | .conflict _ _ =>
          let r := write_with_retry_go attempt remaining (i + 1)
            (delay_ms * 2)
          (r.1, r.2.1, delay_ms :: r.2.2)
      | other => (other, i + 1, [])

/-- `write_with_retry`: start with `retries = 0`, `delay_ms = 10`. -/
def write_with_retry (max_retries : Nat) (attempt : Nat → WriteResult) :
    WriteResult × Nat × List Nat :=
  write_with_retry_go attempt max_retries 0 10

theorem write_with_retry_go_spec (attempt : Nat → WriteResult) :
    ∀ (remaining i delay : Nat),
      (write_with_retry_go attempt remaining i delay).2.1 ≤
          i + remaining + 1 ∧
      (write_with_retry_go attempt remaining i delay).1 =
          attempt ((write_with_retry_go attempt remaining i delay).2.1 - 1) ∧
      (∀ j, i ≤ j → j + 1 < (write_with_retry_go attempt remaining i delay).2.1 →
        ∃ e a, attempt j = .conflict e a) ∧
      (write_with_retry_go attempt remaining i delay).2.2 =
        (List.range ((write_with_retry_go attempt remaining i delay).2.1
          - 1 - i)).map (fun j => delay * 2 ^ j) ∧
      i + 1 ≤ (write_with_retry_go attempt remaining i delay).2.1 ∧
      (∀ e a, (write_with_retry_go attempt remaining i delay).1 =
          .conflict e a →
        (write_with_retry_go attempt remaining i delay).2.1 =
          i + remaining + 1) := by
  intro remaining
  induction remaining with
  | zero =>
      intro i delay
      refine ⟨by simp [write_with_retry_go], by simp [write_with_retry_go], ?_, ?_, ?_, ?_⟩
      · intro j hij hlt
        simp [write_with_retry_go] at hlt
        omega
      · simp [write_with_retry_go]
      · simp [write_with_retry_go]
      · intro e a _
        simp [write_with_retry_go]
  | succ n ih =>
      intro i delay
      cases hatt : attempt i with
      | conflict e a =>
          have h := ih (i + 1) (delay * 2)
          obtain ⟨hle, hres, hconf, hsleeps, hlo, hfin⟩ := h
          have hcount :
              (write_with_retry_go attempt (n + 1) i delay).2.1 =
                (write_with_retry_go attempt n (i + 1) (delay * 2)).2.1 := by
            simp [write_with_retry_go, hatt]
          have hresult :
              (write_with_retry_go attempt (n + 1) i delay).1 =
                (write_with_retry_go attempt n (i + 1) (delay * 2)).1 := by
            simp [write_with_retry_go, hatt]
          have hsl :
              (write_with_retry_go attempt (n + 1) i delay).2.2 =
                delay ::
                  (write_with_retry_go attempt n (i + 1) (delay * 2)).2.2 := by
            simp [write_with_retry_go, hatt]
          refine ⟨by omega, by rw [hresult, hcount]; exact hres, ?_, ?_, by omega, ?_⟩
          · intro j hij hlt
            rcases Nat.lt_or_ge j (i + 1) with hj | hj
            · have : j = i := by omega
              exact ⟨e, a, this ▸ hatt⟩
            · exact hconf j hj (by omega)
          · rw [hsl, hsleeps, hcount]
            have hk : (write_with_retry_go attempt n (i + 1) (delay * 2)).2.1
                - 1 - i =
                ((write_with_retry_go attempt n (i + 1) (delay * 2)).2.1
                  - 1 - (i + 1)) + 1 := by omega
            rw [hk, List.range_succ_eq_map]
            simp only [List.map_cons, List.map_map, pow_zero, mul_one]
            congr 1
            apply List.map_congr_left
            intro j _
            simp only [Function.comp_apply, pow_succ]
            ring
          · intro e₂ a₂ hconf₂
            rw [hresult] at hconf₂
            have := hfin e₂ a₂ hconf₂
            omega
      | success =>
          refine ⟨by simp [write_with_retry_go, hatt],
            by simp [write_with_retry_go, hatt],
            ?_, by simp [write_with_retry_go, hatt],
            by simp [write_with_retry_go, hatt], ?_⟩
          · intro j hij hlt
            simp [write_with_retry_go, hatt] at hlt
            omega
          · intro e a hc
            simp [write_with_retry_go, hatt] at hc
      | error msg =>
          refine ⟨by simp [write_with_retry_go, hatt],
            by simp [write_with_retry_go, hatt],
            ?_, by simp [write_with_retry_go, hatt],
            by simp [write_with_retry_go, hatt], ?_⟩
          · intro j hij hlt
            simp [write_with_retry_go, hatt] at hlt
            omega
          · intro e a hc
            simp [write_with_retry_go, hatt] at hc

/-- C9: `write_with_retry` with `max_retries = N` invokes the write
between 1 and N+1 times, returns the result of the last invocation,
retries only when the previous attempt returned Conflict (every
invocation before the last was a Conflict), sleeps 10ms before the first
retry doubling each attempt (the delays are exactly 10·2^j), and a
returned Conflict is only ever the final one (all N retries used). -/
theorem write_with_retry_spec (max_retries : Nat)
    (attempt : Nat → WriteResult) :
    1 ≤ (write_with_retry max_retries attempt).2.1 ∧
    (write_with_retry max_retries attempt).2.1 ≤ max_retries + 1 ∧
    (write_with_retry max_retries attempt).1 =
      attempt ((write_with_retry max_retries attempt).2.1 - 1) ∧
    (∀ j, j + 1 < (write_with_retry max_retries attempt).2.1 →
      ∃ e a, attempt j = .conflict e a) ∧
    (write_with_retry max_retries attempt).2.2 =
      (List.range ((write_with_retry max_retries attempt).2.1 - 1)).map
        (fun j => 10 * 2 ^ j) ∧
    (∀ e a, (write_with_retry max_retries attempt).1 = .conflict e a →
      (write_with_retry max_retries attempt).2.1 = max_retries + 1) := by
  obtain ⟨hle, hres, hconf, hsleeps, hlo, hfin⟩ :=
    write_with_retry_go_spec attempt max_retries 0 10
  unfold write_with_retry
  exact ⟨hlo, by omega, hres,
    fun j hj => hconf j (Nat.zero_le j) hj,
    by simpa using hsleeps,
    fun e a hc => by have := hfin e a hc; omega⟩

/-- A concrete attempt schedule: one Conflict, then Success. -/
def wAttempt : Nat → WriteResult :=
  fun i => if i = 0 then .conflict ⟨0, "", "h1"⟩ ⟨1, "", "h2"⟩ else .success

/-- Witness for C9 with `max_retries = 2` and `wAttempt`: two
invocations, one 10ms sleep, Success returned from the second attempt. -/
theorem write_with_retry_spec_witness :
    1 ≤ (write_with_retry 2 wAttempt).2.1 ∧
    (write_with_retry 2 wAttempt).2.1 ≤ 2 + 1 ∧
    (write_with_retry 2 wAttempt).1 =
      wAttempt ((write_with_retry 2 wAttempt).2.1 - 1) ∧
    (∀ j, j + 1 < (write_with_retry 2 wAttempt).2.1 →
      ∃ e a, wAttempt j = .conflict e a) ∧
    (write_with_retry 2 wAttempt).2.2 =
      (List.range ((write_with_retry 2 wAttempt).2.1 - 1)).map
        (fun j => 10 * 2 ^ j) ∧
    (∀ e a, (write_with_retry 2 wAttempt).1 = .conflict e a →
      (write_with_retry 2 wAttempt).2.1 = 2 + 1) :=
  write_with_retry_spec 2 wAttempt

/-! ## Validator (`crates/spool/src/validation.rs`) -/

/-- A raw log line as the validator sees it: blank (skipped), a line
`serde_json::from_str::<Value>` rejects, or a parsed JSON value. -/
inductive VLine where
  | blankLine : VLine
  | invalidJson (raw : String) : VLine
  | jsonLine (j : Json) : VLine

/-- One diagnostic string pushed by the validator; each constructor
stands for one distinct `format!` message of `validation.rs`. -/
inductive VDiag where
  | invalidJson (file : String) (line : Nat)
  | missingField (file : String) (line : Nat) (field : String)
  | invalidTimestamp (file : String) (line : Nat) (ts : String)
  | unknownSchemaVersion (file : String) (line : Nat) (v : Nat)
  | duplicateCreate (file : String) (line : Nat) (id : String)
  | beforeCreate (file : String) (line : Nat) (id : String)
  | orphanBlockedBy (task target : String)
  | orphanBlocks (task target : String)
  | orphanParent (task target : String)
deriving DecidableEq, Repr

def VDiag.isMissingField : VDiag → Bool
  | .missingField _ _ _ => true
  | _ => false

def VDiag.isDuplicateCreate : VDiag → Bool
  | .duplicateCreate _ _ _ => true
  | _ => false

def VDiag.isBeforeCreate : VDiag → Bool
  | .beforeCreate _ _ _ => true
  | _ => false

/-- The 7 required keys (`validation.rs` line 169). -/
def requiredFields : List String := ["v", "op", "id", "ts", "by", "branch", "d"]

/-- `HashSet::insert` on the created-ids set (modelled as a list). -/
def setInsert (s : List String) (x : String) : List String :=
  if s.contains x then s else x :: s

/-- The per-line checks run on a successfully parsed JSON line
(`validation.rs` lines 168–227): required keys, schema version, create
tracking, timestamp format. Returns the errors and warnings contributed
by this line (in push order) and the updated created-ids set. -/
def validateLine (file : String) (n : Nat) (j : Json)
    (created : List String) : List VDiag × List VDiag × List String :=
  let missing := (requiredFields.filter fun f => (j.get f).isNone).map
    fun f => VDiag.missingField file n f
  let verWarn := match (j.get "v").bind Json.asU64 with
    | some v => if v ≠ 1 then [VDiag.unknownSchemaVersion file n v] else []
    | none => []
  let opPart :=
    match (j.get "op").bind Json.asStr, (j.get "id").bind Json.asStr with
    | some op, some id =>
        if op = "create" then
          (if created.contains id then [VDiag.duplicateCreate file n id]
           else [], setInsert created id)
        else
          (if created.contains id then []
           else [VDiag.beforeCreate file n id], created)
    | _, _ => ([], created)
  let tsErr := match (j.get "ts").bind Json.asStr with
    | some ts =>
        if (parseRfc3339 ts).isNone then [VDiag.invalidTimestamp file n ts]
        else []
    | none => []
  (missing ++ tsErr, verWarn ++ opPart.1, opPart.2)

/-- The line loop of `validate_event_file` (`validation.rs` lines
142–228): line numbers are 1-based, blank lines skipped, unparseable
lines push exactly one Invalid JSON error and `continue`. -/
def validateLines (file : String) : List VLine → Nat →
    List VDiag × List VDiag × List String →
    List VDiag × List VDiag × List String
  | [], _, acc => acc
  | .blankLine :: rest, n, acc => validateLines file rest (n + 1) acc
  | .invalidJson _ :: rest, n, (errs, warns, created) =>
      validateLines file rest (n + 1)
        (errs ++ [VDiag.invalidJson file n], warns, created)
  | .jsonLine j :: rest, n, (errs, warns, created) =>
      let r := validateLine file n j created
      validateLines file rest (n + 1)
        (errs ++ r.1, warns ++ r.2.1, r.2.2)

/-- The raw store the validator reads: `.jsonl` files as raw lines. -/
structure RawStore where
  archives : List (String × List VLine)
  dailies : List (String × List VLine)

/-- The accumulation pass of `validate`: event files first, then archive
files (each directory listing sorted by name), one shared created-ids
set. -/
def validateScan (s : RawStore) : List VDiag × List VDiag × List String :=
  ((sortListBy (fun a b => a.1 ≤ b.1) s.dailies) ++
      sortListBy (fun a b => a.1 ≤ b.1) s.archives).foldl
    (fun acc f => validateLines f.1 f.2 1 acc) ([], [], [])

/-- The inverse of `Operation.wireName`: serde's `snake_case`
deserialization of the `op` tag. -/
def operationFromString (s : String) : Option Operation :=
  if s = "create" then some .create
  else if s = "update" then some .update
  else if s = "assign" then some .assign
  else if s = "comment" then some .comment
  else if s = "link" then some .link
  else if s = "unlink" then some .unlink
  else if s = "complete" then some .complete
  else if s = "reopen" then some .reopen
  else if s = "archive" then some .archive
  else if s = "set_stream" then some .setStream
  else if s = "create_stream" then some .createStream
  else if s = "update_stream" then some .updateStream
  else if s = "delete_stream" then some .deleteStream
  else none

/-- The strict serde `Deserialize` of `Event`: all 7 fields required and
well-typed, unknown fields ignored (serde default). -/
def eventFromJson (j : Json) : Option Event := do
  let v ← (j.get "v").bind Json.asU64
  let opStr ← (j.get "op").bind Json.asStr
  let op ← operationFromString opStr
  let id ← (j.get "id").bind Json.asStr
  let tsStr ← (j.get "ts").bind Json.asStr
  let ts ← parseRfc3339 tsStr
  let author ← (j.get "by").bind Json.asStr
  let branch ← (j.get "branch").bind Json.asStr
  let d ← j.get "d"
  pure ⟨v, op, id, ts, author, branch, d⟩

/-- `parse_events_from_file` (`src/context.rs` lines 77–91; the spool
crate's `SpoolContext` twin is not under `src/` — modelled from that
source and the spec's fail-fast description): every non-blank line must
parse as a strict `Event`, the first malformed line fails the whole
read. -/
def parseLines : List VLine → Option (List Event)
  | [] => some []
  | .blankLine :: rest => parseLines rest
  | .invalidJson _ :: _ => none
  | .jsonLine j :: rest => do
      let e ← eventFromJson j
      let es ← parseLines rest
      pure (e :: es)

/-- `materialize` as invoked by `validate`: read raw files (archives
then dailies, each sorted), fail-fast strict parse, then fold
`apply_event`. -/
def materializeRaw (s : RawStore) (now : Int) : Option State := do
  let aevs ← (sortListBy (fun a b => a.1 ≤ b.1) s.archives).mapM
    fun f => parseLines f.2
  let devs ← (sortListBy (fun a b => a.1 ≤ b.1) s.dailies).mapM
    fun f => parseLines f.2
  let maps := apply_events ([], []) (aevs.flatten ++ devs.flatten)
  pure ⟨maps.1, maps.2, now⟩

/-- The cross-task referential warnings (`validation.rs` lines 60–88). -/
def orphanWarnings (st : State) : List VDiag :=
  st.tasks.flatMap fun p =>
    (p.2.blocked_by.filter fun b => (mapFind? st.tasks b).isNone).map
      (fun b => VDiag.orphanBlockedBy p.2.id b) ++
    ((p.2.blocks.filter fun b => (mapFind? st.tasks b).isNone).map
      (fun b => VDiag.orphanBlocks p.2.id b) ++
    (match p.2.parent with
     | some par =>
        if (mapFind? st.tasks par).isNone then
          [VDiag.orphanParent p.2.id par]
        else []
     | none => []))

/-- The `anyhow` failures `validate` can return. -/
inductive VFailure where
  | parseFailure : VFailure
  | strictErrors (count : Nat) : VFailure
  | strictWarnings (count : Nat) : VFailure
deriving DecidableEq, Repr

/-- `validate` (`validation.rs` lines 17–124): accumulate per-line
diagnostics over event then archive files; when no structural error was
recorded, run `materialize` (whose `?` propagates a parse failure) and
append the orphan warnings; in strict mode failure-count errors escalate
first, then warnings. Printing is omitted. -/
def validate (s : RawStore) (strict : Bool) (now : Int) :
    Except VFailure (List VDiag × List VDiag) :=
  let acc := validateScan s
  let errors := acc.1
  let step : Except VFailure (List VDiag) :=
    if errors.isEmpty then
      match materializeRaw s now with
      | none => .error .parseFailure
      | some st => .ok (acc.2.1 ++ orphanWarnings st)
    else .ok acc.2.1
  match step with
  | .error e => .error e
  | .ok warnings =>
      if strict ∧ ¬errors.isEmpty then .error (.strictErrors errors.length)
      else if strict ∧ ¬warnings.isEmpty then
        .error (.strictWarnings warnings.length)
      else .ok (errors, warnings)

/-! ## C8 — per-line validator soundness -/

/-- C8: per validated line — an unparseable line contributes exactly one
"Invalid JSON" error and nothing else; a parsed line missing `k` of the 7
required keys contributes exactly `k` missing-field errors; a second
`create` for an already-created id contributes exactly one
duplicate-create warning; a non-create op whose id is not yet created in
scan order contributes exactly one before-create warning. -/
theorem validator_per_line_diagnostics (file : String) (n : Nat)
    (j : Json) (created : List String) :
    (∀ (raw : String) (errs warns : List VDiag) (cs : List String),
      validateLines file [.invalidJson raw] n (errs, warns, cs) =
        (errs ++ [VDiag.invalidJson file n], warns, cs)) ∧
    ((validateLine file n j created).1.countP VDiag.isMissingField =
      (requiredFields.filter fun f => (j.get f).isNone).length) ∧
    ((j.get "op").bind Json.asStr = some "create" →
      ∀ id, (j.get "id").bind Json.asStr = some id →
        created.contains id = true →
        (validateLine file n j created).2.1.countP
          VDiag.isDuplicateCreate = 1) ∧
    (∀ op id, (j.get "op").bind Json.asStr = some op → op ≠ "create" →
      (j.get "id").bind Json.asStr = some id →
      created.contains id = false →
      (validateLine file n j created).2.1.countP VDiag.isBeforeCreate = 1) := by
  refine ⟨?_, ?_, ?_, ?_⟩
  · intro raw errs warns cs
    simp [validateLines]
  · simp only [validateLine, List.countP_append]
    have h1 : ∀ l : List String,
        (l.map fun f => VDiag.missingField file n f).countP
          VDiag.isMissingField = l.length := by
      intro l
      induction l with
      | nil => simp
      | cons hd tl ih => simp [List.countP_cons, ih, VDiag.isMissingField]
    rw [h1]
    cases hts : (j.get "ts").bind Json.asStr with
    | none => simp
    | some ts =>
        by_cases hp : (parseRfc3339 ts).isNone <;>
          simp [hp, VDiag.isMissingField]
  · intro hop id hid hc
    have hm : id ∈ created := by simpa using hc
    simp only [validateLine, hop, hid, List.countP_append]
    cases hv : (j.get "v").bind Json.asU64 with
    | none => simp [hm, VDiag.isDuplicateCreate]
    | some v =>
        by_cases h1 : v = 1 <;>
          simp [h1, hm, VDiag.isDuplicateCreate]
  · intro op id hop hne hid hc
    have hm : id ∉ created := by simpa using hc
    simp only [validateLine, hop, hid, List.countP_append]
    cases hv : (j.get "v").bind Json.asU64 with
    | none => simp [hne, hm, VDiag.isBeforeCreate]
    | some v =>
        by_cases h1 : v = 1 <;>
          simp [h1, hne, hm, VDiag.isBeforeCreate]

/-- Witness for C8: a line missing `by` and `branch` (2 missing-field
errors), a duplicate create, and an update before any create. -/
theorem validator_per_line_diagnostics_witness :
    ((∀ (raw : String) (errs warns : List VDiag) (cs : List String),
      validateLines "f.jsonl" [.invalidJson raw] 3 (errs, warns, cs) =
        (errs ++ [VDiag.invalidJson "f.jsonl" 3], warns, cs)) ∧
     ((validateLine "f.jsonl" 3
        (Json.obj [("v", Json.num 1), ("op", Json.str "create"),
          ("id", Json.str "t1"),
          ("ts", Json.str "2024-01-15T10:00:00Z"), ("d", Json.obj [])])
        ["t1"]).1.countP VDiag.isMissingField =
      (requiredFields.filter fun f =>
        ((Json.obj [("v", Json.num 1), ("op", Json.str "create"),
          ("id", Json.str "t1"),
          ("ts", Json.str "2024-01-15T10:00:00Z"),
          ("d", Json.obj [])]).get f).isNone).length) ∧
     (((Json.obj [("v", Json.num 1), ("op", Json.str "create"),
          ("id", Json.str "t1"),
          ("ts", Json.str "2024-01-15T10:00:00Z"),
          ("d", Json.obj [])]).get "op").bind Json.asStr = some "create" →
      ∀ id, ((Json.obj [("v", Json.num 1), ("op", Json.str "create"),
          ("id", Json.str "t1"),
          ("ts", Json.str "2024-01-15T10:00:00Z"),
          ("d", Json.obj [])]).get "id").bind Json.asStr = some id →
        List.contains ["t1"] id = true →
        (validateLine "f.jsonl" 3
          (Json.obj [("v", Json.num 1), ("op", Json.str "create"),
            ("id", Json.str "t1"),
            ("ts", Json.str "2024-01-15T10:00:00Z"), ("d", Json.obj [])])
          ["t1"]).2.1.countP VDiag.isDuplicateCreate = 1) ∧
     (∀ op id, ((Json.obj [("v", Json.num 1), ("op", Json.str "create"),
          ("id", Json.str "t1"),
          ("ts", Json.str "2024-01-15T10:00:00Z"),
          ("d", Json.obj [])]).get "op").bind Json.asStr = some op →
      op ≠ "create" →
      ((Json.obj [("v", Json.num 1), ("op", Json.str "create"),
          ("id", Json.str "t1"),
          ("ts", Json.str "2024-01-15T10:00:00Z"),
          ("d", Json.obj [])]).get "id").bind Json.asStr = some id →
      List.contains ["t1"] id = false →
      (validateLine "f.jsonl" 3
        (Json.obj [("v", Json.num 1), ("op", Json.str "create"),
          ("id", Json.str "t1"),
          ("ts", Json.str "2024-01-15T10:00:00Z"), ("d", Json.obj [])])
        ["t1"]).2.1.countP VDiag.isBeforeCreate = 1)) ∧
    (validateLine "f.jsonl" 3
      (Json.obj [("v", Json.num 1), ("op", Json.str "create"),
        ("id", Json.str "t1"), ("ts", Json.str "2024-01-15T10:00:00Z"),
        ("d", Json.obj [])]) ["t1"]).1.countP VDiag.isMissingField = 2 ∧
    (validateLine "f.jsonl" 3
      (Json.obj [("v", Json.num 1), ("op", Json.str "create"),
        ("id", Json.str "t1"), ("ts", Json.str "2024-01-15T10:00:00Z"),
        ("d", Json.obj [])]) ["t1"]).2.1.countP
      VDiag.isDuplicateCreate = 1 ∧
    (validateLine "f.jsonl" 3
      (Json.obj [("v", Json.num 1), ("op", Json.str "update"),
        ("id", Json.str "t9"), ("ts", Json.str "2024-01-15T10:00:00Z"),
        ("by", Json.str "@a"), ("branch", Json.str "main"),
        ("d", Json.obj [])]) []).2.1.countP VDiag.isBeforeCreate = 1 :=
  ⟨validator_per_line_diagnostics "f.jsonl" 3
      (Json.obj [("v", Json.num 1), ("op", Json.str "create"),
        ("id", Json.str "t1"), ("ts", Json.str "2024-01-15T10:00:00Z"),
        ("d", Json.obj [])]) ["t1"],
   by decide,
   (validator_per_line_diagnostics "f.jsonl" 3
      (Json.obj [("v", Json.num 1), ("op", Json.str "create"),
        ("id", Json.str "t1"), ("ts", Json.str "2024-01-15T10:00:00Z"),
        ("d", Json.obj [])]) ["t1"]).2.2.1 rfl "t1" rfl rfl,
   (validator_per_line_diagnostics "f.jsonl" 3
      (Json.obj [("v", Json.num 1), ("op", Json.str "update"),
        ("id", Json.str "t9"), ("ts", Json.str "2024-01-15T10:00:00Z"),
        ("by", Json.str "@a"), ("branch", Json.str "main"),
        ("d", Json.obj [])]) []).2.2.2 "update" "t9" rfl
      (by decide) rfl rfl⟩

/-! ## C3 — non-strict validation and the materialize escape hatch -/

/-- A line that is valid JSON with all 7 required keys and a valid
timestamp, but whose `op` is not a recognized `Operation` — the per-line
scan records no error, yet the strict `Event` parser rejects it. -/
def cexBadOpLine : Json :=
  Json.obj [("v", Json.num 1), ("op", Json.str "frobnicate"),
    ("id", Json.str "t1"), ("ts", Json.str "2024-01-15T10:00:00Z"),
    ("by", Json.str "@a"), ("branch", Json.str "main"),
    ("d", Json.obj [])]

def cexValStore : RawStore :=
  ⟨[], [("2024-01-15.jsonl", [VLine.jsonLine cexBadOpLine])]⟩

/-- C3 counterexample: with `strict = false`, `validate` does NOT always
return `Ok` — on a store whose only line carries the unrecognized op
`"frobnicate"` (zero structural errors, so the orphan check runs
`materialize`, whose fail-fast strict parse rejects the line and
propagates through `?`), `validate` aborts with an error. -/
theorem validate_bad_op_aborts :
    validate cexValStore false 0 = .error .parseFailure := rfl

/-- C3 (amended): with `strict = false`, `validate` returns `Ok` with
its accumulated error and warning lists — a malformed-JSON line never
aborts the pass, since each line is parsed as generic JSON — except when
the per-line scan records no structural error yet some line fails the
strict `Event` parse (e.g. an unrecognized op): then the embedded
`materialize` call of the referential check aborts the pass. `Ok` is
guaranteed whenever structural errors were found (the materialize call
is skipped) or the whole store strict-parses. -/
theorem validate_nonstrict_completes (s : RawStore) (now : Int)
    (h : (validateScan s).1 = [] → ∃ st, materializeRaw s now = some st) :
    ∃ r, validate s false now = .ok r := by
  by_cases he : (validateScan s).1.isEmpty
  · obtain ⟨st, hst⟩ := h (by simpa using he)
    simp [validate, he, hst]
  · simp [validate, he]

/-- A store whose single line is a fully valid create event. -/
def cexGoodStore : RawStore :=
  ⟨[], [("2024-01-15.jsonl", [VLine.jsonLine
    (Json.obj [("v", Json.num 1), ("op", Json.str "create"),
      ("id", Json.str "t1"), ("ts", Json.str "2024-01-15T10:00:00Z"),
      ("by", Json.str "@a"), ("branch", Json.str "main"),
      ("d", Json.obj [("title", Json.str "A")])])])]⟩

/-- Witness for the amended C3: on a fully parseable store the
non-strict pass returns `Ok`. -/
theorem validate_nonstrict_completes_witness :
    ∃ r, validate cexGoodStore false 0 = .ok r :=
  validate_nonstrict_completes cexGoodStore 0 (fun _ => ⟨_, rfl⟩)

/-! ## Archival engine (`src/archive.rs`) -/

/-- Rust's `Ord` on `Option<DateTime>`: `None` sorts first. -/
def optLe : Option Int → Option Int → Bool
  | none, _ => true
  | some _, none => false
  | some a, some b => a ≤ b

/-- The archival selection predicate (`archive.rs` lines 19–23):
completed before the cutoff and not yet archived. -/
def archiveEligible (cutoff : Int) (t : SpoolTask) : Bool :=
  t.status == TaskStatus.complete &&
    (match t.completed with
     | some c => decide (c < cutoff)
     | none => false) &&
    t.archived.isNone

/-- `BTreeMap::entry(month).or_default().push(task)`: sorted-by-key
association list, append within a key's group. -/
def btreePush (m : List (String × List SpoolTask)) (key : String)
    (t : SpoolTask) : List (String × List SpoolTask) :=
  match m with
  | [] => [(key, [t])]
  | (k, ts) :: rest =>
      if key = k then (k, ts ++ [t]) :: rest
      else if key < k then (key, [t]) :: (k, ts) :: rest
      else (k, ts) :: btreePush rest key t

/-- `HashMap::entry(id).or_default().push(event)` of
`collect_all_events` (insertion-ordered deterministic refinement). -/
def collectPush (m : List (String × List Event)) (key : String)
    (e : Event) : List (String × List Event) :=
  match m with
  | [] => [(key, [e])]
  | (k, es) :: rest =>
      if k = key then (k, es ++ [e]) :: rest
      else (k, es) :: collectPush rest key e

/-- `collect_all_events` (`archive.rs` lines 114–128): every daily-log
event grouped by id, file order preserved. -/
def collect_all_events (s : SpoolStore) : List (String × List Event) :=
  (((sortFiles s.dailies).map Prod.snd).flatten).foldl
    (fun m e => collectPush m e.id e) []

/-- The Archive event emitted per archived task (`archive.rs` lines
91–99): `ts`/`by` come from the clock and the literal `"@spool"`,
`branch` from the external `get_current_branch`. -/
def archiveEventFor (id month branch : String) (now : Int) : Event :=
  ⟨1, .archive, id, now, "@spool", branch, Json.obj [("ref", Json.str month)]⟩

/-- The selected and sorted candidate list of `archive_tasks`
(`archive.rs` lines 13–26): completed-and-unarchived tasks older than
the cutoff, sorted by completion time (stable, as Rust's
`sort_by_key`). -/
def archiveCandidates (s : SpoolStore) (days : Nat) (now : Int) :
    List SpoolTask :=
  sortListBy (fun a b => optLe a.completed b.completed)
    (((materialize s now).tasks.map Prod.snd).filter
      (archiveEligible (now - days * 86400)))

/-- The Archive events appended to today's daily log, one per candidate
with a completion time (`archive.rs` lines 88–103). -/
def archiveEvents (to_archive : List SpoolTask) (branch : String)
    (now : Int) : List Event :=
  to_archive.filterMap fun t =>
    t.completed.map fun c => archiveEventFor t.id (formatMonth c) branch now

/-- The write phase of a non-dry `archive_tasks` run (`archive.rs` lines
43–104): per month group append the grouped tasks' full daily-log
histories to `archive/YYYY-MM.jsonl`, then append the Archive events to
today's daily log. -/
def archiveWrites (s : SpoolStore) (to_archive : List SpoolTask)
    (now : Int) (branch : String) : SpoolStore :=
  let by_month := to_archive.foldl
    (fun m t =>
      match t.completed with
      | some c => btreePush m (formatMonth c) t
      | none => m) []
  let all_events := collect_all_events s
  let s' := by_month.foldl
    (fun acc p =>
      { acc with
        archives := appendFile acc.archives (p.1 ++ ".jsonl")
          ((p.2.map fun t => (mapFind? all_events t.id).getD []).flatten) })
    s
  appendDaily s' (formatDay now ++ ".jsonl")
    (archiveEvents to_archive branch now)

/-- `archive_tasks` (`archive.rs` lines 12–112): materialize, select and
sort candidates, return early when empty or on dry run; otherwise run
the write phase. Returns the candidate ids and the store after the
call. -/
def archive_tasks (s : SpoolStore) (days : Nat) (dry_run : Bool)
    (now : Int) (branch : String) : List String × SpoolStore :=
  let to_archive := archiveCandidates s days now
  if to_archive.isEmpty then ([], s)
  else
    let archived_ids := to_archive.map (·.id)
    if dry_run then (archived_ids, s)
    else (archived_ids, archiveWrites s to_archive now branch)

/-! ## Replay invariants and sorting lemmas for C4 -/

theorem applyUpdate_id (d : Json) (ts : Int) (t : SpoolTask) :
    (applyUpdate d ts t).id = t.id := by
  unfold applyUpdate
  repeat' split
  all_goals rfl

theorem applyAssign_id (d : Json) (ts : Int) (t : SpoolTask) :
    (applyAssign d ts t).id = t.id := rfl

theorem applyComment_id (e : Event) (t : SpoolTask) :
    (applyComment e t).id = t.id := rfl

theorem applyLink_id (d : Json) (ts : Int) (t : SpoolTask) :
    (applyLink d ts t).id = t.id := by
  unfold applyLink
  repeat' split
  all_goals rfl

theorem applyUnlink_id (d : Json) (ts : Int) (t : SpoolTask) :
    (applyUnlink d ts t).id = t.id := by
  unfold applyUnlink
  repeat' split
  all_goals rfl

theorem applyComplete_id (d : Json) (ts : Int) (t : SpoolTask) :
    (applyComplete d ts t).id = t.id := rfl

theorem applyReopen_id (ts : Int) (t : SpoolTask) :
    (applyReopen ts t).id = t.id := rfl

theorem applyArchive_id (d : Json) (ts : Int) (t : SpoolTask) :
    (applyArchive d ts t).id = t.id := rfl

theorem applySetStream_id (d : Json) (ts : Int) (t : SpoolTask) :
    (applySetStream d ts t).id = t.id := rfl

/-- Well-formedness of a tasks map: each task records its own key as
`id` (established by Create, preserved by every other arm). -/
def TasksWF (tasks : SMap SpoolTask) : Prop :=
  ∀ p ∈ tasks, (p : String × SpoolTask).2.id = p.1

/-- Key uniqueness of an association map. -/
def NodupKeys {α : Type} (m : SMap α) : Prop :=
  (m.map Prod.fst).Nodup

theorem mapInsert_wf {m : SMap SpoolTask} {key : String}
    {v : SpoolTask} (hm : TasksWF m) (hv : v.id = key) :
    TasksWF (mapInsert m key v) := by
  induction m with
  | nil =>
      intro p hp
      simp [mapInsert] at hp
      simp [hp, hv]
  | cons hd rest ih =>
      obtain ⟨k, w⟩ := hd
      have hrest : TasksWF rest := fun p hp => hm p (List.mem_cons_of_mem _ hp)
      intro p hp
      by_cases hk : k = key
      · simp [mapInsert, hk] at hp
        rcases hp with hp | hp
        · simp [hp, hv, hk]
        · exact hm p (List.mem_cons_of_mem _ hp)
      · simp only [mapInsert, if_neg hk] at hp
        rcases List.mem_cons.mp hp with hp | hp
        · exact hm p (hp ▸ List.mem_cons_self _ _)
        · exact ih hrest p hp

theorem mapModify_wf {m : SMap SpoolTask} {key : String}
    {f : SpoolTask → SpoolTask} (hm : TasksWF m)
    (hf : ∀ t, (f t).id = t.id) : TasksWF (mapModify m key f) := by
  induction m with
  | nil =>
      intro p hp
      simp [mapModify] at hp
  | cons hd rest ih =>
      obtain ⟨k, w⟩ := hd
      have hrest : TasksWF rest := fun p hp => hm p (List.mem_cons_of_mem _ hp)
      intro p hp
      by_cases hk : k = key
      · simp [mapModify, hk] at hp
        rcases hp with hp | hp
        · subst hp
          simp only [hf]
          exact hk ▸ hm (k, w) (List.mem_cons_self _ _)
        · exact hm p (List.mem_cons_of_mem _ hp)
      · simp only [mapModify, if_neg hk] at hp
        rcases List.mem_cons.mp hp with hp | hp
        · exact hm p (hp ▸ List.mem_cons_self _ _)
        · exact ih hrest p hp

/-- Every arm of `apply_event` preserves the tasks-map well-formedness. -/
theorem apply_event_wf (tasks : SMap SpoolTask) (streams : SMap SpoolStream)
    (e : Event) (hm : TasksWF tasks) :
    TasksWF (apply_event tasks streams e).1 := by
  cases hop : e.op <;> simp only [apply_event, hop]
  case create => exact mapInsert_wf hm rfl
  case update => exact mapModify_wf hm (applyUpdate_id e.d e.ts)
  case assign => exact mapModify_wf hm (applyAssign_id e.d e.ts)
  case comment => exact mapModify_wf hm (applyComment_id e)
  case link => exact mapModify_wf hm (applyLink_id e.d e.ts)
  case unlink => exact mapModify_wf hm (applyUnlink_id e.d e.ts)
  case complete => exact mapModify_wf hm (applyComplete_id e.d e.ts)
  case reopen => exact mapModify_wf hm (applyReopen_id e.ts)
  case archive => exact mapModify_wf hm (applyArchive_id e.d e.ts)
  case setStream => exact mapModify_wf hm (applySetStream_id e.d e.ts)
  case createStream => exact hm
  case updateStream => exact hm
  case deleteStream => exact hm

theorem apply_events_wf (events : List Event) :
    ∀ (maps : SMap SpoolTask × SMap SpoolStream), TasksWF maps.1 →
      TasksWF (apply_events maps events).1 := by
  induction events with
  | nil => intro maps hm; exact hm
  | cons e rest ih =>
      intro maps hm
      have h1 := apply_event_wf maps.1 maps.2 e hm
      simpa [apply_events] using ih (apply_event maps.1 maps.2 e) h1

theorem mem_keys_mapInsert {α : Type} {m : SMap α} {key x : String}
    {v : α} (h : x ∈ (mapInsert m key v).map Prod.fst) :
    x ∈ m.map Prod.fst ∨ x = key := by
  induction m with
  | nil => simpa [mapInsert] using h
  | cons hd rest ih =>
      obtain ⟨k, w⟩ := hd
      by_cases hk : k = key
      · simp [mapInsert, hk] at h
        rcases h with h | h
        · exact .inr (hk ▸ h)
        · exact .inl (by simp [h])
      · simp only [mapInsert, if_neg hk, List.map_cons, List.mem_cons] at h ⊢
        rcases h with h | h
        · exact .inl (.inl h)
        · rcases ih h with h | h
          · exact .inl (.inr h)
          · exact .inr h

theorem mapInsert_nodup {α : Type} {m : SMap α} {key : String} {v : α}
    (h : NodupKeys m) : NodupKeys (mapInsert m key v) := by
  induction m with
  | nil => simp [mapInsert, NodupKeys]
  | cons hd rest ih =>
      obtain ⟨k, w⟩ := hd
      have hrest : NodupKeys rest := (List.nodup_cons.mp h).2
      have hknotin : k ∉ rest.map Prod.fst := (List.nodup_cons.mp h).1
      by_cases hk : k = key
      · simpa [mapInsert, hk, NodupKeys] using h
      · simp only [mapInsert, if_neg hk, NodupKeys, List.map_cons,
          List.nodup_cons]
        refine ⟨?_, ih hrest⟩
        intro hmem
        rcases mem_keys_mapInsert hmem with hmem | hmem
        · exact hknotin hmem
        · exact hk hmem

theorem keys_mapModify {α : Type} (m : SMap α) (key : String)
    (f : α → α) : (mapModify m key f).map Prod.fst = m.map Prod.fst := by
  induction m with
  | nil => simp [mapModify]
  | cons hd rest ih =>
      obtain ⟨k, w⟩ := hd
      by_cases hk : k = key <;> simp [mapModify, hk, ih]

theorem mapModify_nodup {α : Type} {m : SMap α} {key : String}
    {f : α → α} (h : NodupKeys m) : NodupKeys (mapModify m key f) := by
  unfold NodupKeys
  rw [keys_mapModify]
  exact h

theorem mem_keys_mapErase {α : Type} {m : SMap α} {key x : String}
    (h : x ∈ (mapErase m key).map Prod.fst) : x ∈ m.map Prod.fst := by
  induction m with
  | nil => exact h
  | cons hd rest ih =>
      obtain ⟨k, w⟩ := hd
      by_cases hk : k = key
      · simp [mapErase, hk] at h
        simp [h]
      · simp only [mapErase, if_neg hk, List.map_cons, List.mem_cons] at h ⊢
        rcases h with h | h
        · exact .inl h
        · exact .inr (ih h)

theorem mapErase_nodup {α : Type} {m : SMap α} {key : String}
    (h : NodupKeys m) : NodupKeys (mapErase m key) := by
  induction m with
  | nil => exact h
  | cons hd rest ih =>
      obtain ⟨k, w⟩ := hd
      have hrest : NodupKeys rest := (List.nodup_cons.mp h).2
      have hknotin : k ∉ rest.map Prod.fst := (List.nodup_cons.mp h).1
      by_cases hk : k = key
      · simpa [NodupKeys, mapErase, hk] using hrest
      · simp only [NodupKeys, mapErase, if_neg hk, List.map_cons,
          List.nodup_cons]
        refine ⟨fun hmem => hknotin (mem_keys_mapErase hmem), ih hrest⟩

theorem apply_event_nodup (tasks : SMap SpoolTask)
    (streams : SMap SpoolStream) (e : Event) (hm : NodupKeys tasks) :
    NodupKeys (apply_event tasks streams e).1 := by
  cases hop : e.op <;> simp only [apply_event, hop] <;>
    first
      | exact mapInsert_nodup hm
      | exact mapModify_nodup hm
      | exact hm

theorem apply_events_nodup (events : List Event) :
    ∀ (maps : SMap SpoolTask × SMap SpoolStream), NodupKeys maps.1 →
      NodupKeys (apply_events maps events).1 := by
  induction events with
  | nil => intro maps hm; exact hm
  | cons e rest ih =>
      intro maps hm
      have h1 := apply_event_nodup maps.1 maps.2 e hm
      simpa [apply_events] using ih (apply_event maps.1 maps.2 e) h1

theorem mapFind?_of_mem {α : Type} {m : SMap α} {k : String} {v : α}
    (hnd : NodupKeys m) (hmem : (k, v) ∈ m) : mapFind? m k = some v := by
  induction m with
  | nil => simp at hmem
  | cons hd rest ih =>
      obtain ⟨k', w⟩ := hd
      have hrest : NodupKeys rest := (List.nodup_cons.mp hnd).2
      have hknotin : k' ∉ rest.map Prod.fst := (List.nodup_cons.mp hnd).1
      rcases List.mem_cons.mp hmem with hmem | hmem
      · obtain ⟨h1, h2⟩ := Prod.mk.injEq .. ▸ hmem
        simp [mapFind?, h1.symm, h2]
      · by_cases hk : k' = k
        · exfalso
          apply hknotin
          subst hk
          exact List.mem_map.mpr ⟨(k', v), hmem, rfl⟩
        · simp only [mapFind?, if_neg hk]
          exact ih hrest hmem

theorem mem_insertSortedBy {α : Type} (le : α → α → Bool) (x y : α)
    (l : List α) : y ∈ insertSortedBy le x l ↔ y = x ∨ y ∈ l := by
  induction l with
  | nil => simp [insertSortedBy]
  | cons hd rest ih =>
      by_cases hle : le x hd <;>
        simp [insertSortedBy, hle, ih] <;> tauto

theorem mem_sortListBy {α : Type} (le : α → α → Bool) (x : α)
    (l : List α) : x ∈ sortListBy le l ↔ x ∈ l := by
  induction l with
  | nil => simp [sortListBy]
  | cons hd rest ih =>
      simp only [sortListBy, List.foldr_cons] at ih ⊢
      rw [mem_insertSortedBy, ih, List.mem_cons]

theorem insertSortedBy_append_last {α : Type} (le : α → α → Bool)
    (y x : α) (l : List α) (h : le y x = true) :
    insertSortedBy le y (l ++ [x]) = insertSortedBy le y l ++ [x] := by
  induction l with
  | nil => simp [insertSortedBy, h]
  | cons hd rest ih =>
      by_cases hle : le y hd <;> simp [insertSortedBy, hle, ih]

theorem sortListBy_append_last {α : Type} (le : α → α → Bool) (x : α)
    (l : List α) (h : ∀ y ∈ l, le y x = true) :
    sortListBy le (l ++ [x]) = sortListBy le l ++ [x] := by
  induction l with
  | nil => simp [sortListBy, insertSortedBy]
  | cons hd rest ih =>
      simp only [List.cons_append, sortListBy, List.foldr_cons]
      have hrest := ih (fun y hy => h y (List.mem_cons_of_mem _ hy))
      simp only [sortListBy] at hrest
      rw [hrest, insertSortedBy_append_last]
      exact h hd (List.mem_cons_self _ _)

theorem appendFile_not_mem (files : List (String × List Event))
    (name : String) (evs : List Event)
    (h : ∀ f ∈ files, (f : String × List Event).1 ≠ name) :
    appendFile files name evs = files ++ [(name, evs)] := by
  induction files with
  | nil => simp [appendFile]
  | cons hd rest ih =>
      obtain ⟨n, es⟩ := hd
      have hn : n ≠ name := h (n, es) (List.mem_cons_self _ _)
      simp only [appendFile, if_neg hn, List.cons_append]
      rw [ih (fun f hf => h f (List.mem_cons_of_mem _ hf))]

theorem apply_events_append (maps : SMap SpoolTask × SMap SpoolStream)
    (l₁ l₂ : List Event) :
    apply_events maps (l₁ ++ l₂) = apply_events (apply_events maps l₁) l₂ := by
  simp [apply_events, List.foldl_append]

theorem mapFind?_apply_event_other (tasks : SMap SpoolTask)
    (streams : SMap SpoolStream) (e : Event) (t : String)
    (hop : e.op = .archive) (hne : e.id ≠ t) :
    mapFind? (apply_event tasks streams e).1 t = mapFind? tasks t := by
  simp only [apply_event, hop]
  exact mapFind?_mapModify_ne tasks e.id t _ hne

theorem archive_events_preserve (t : String) (A : List Event)
    (hA : ∀ e ∈ A, (e : Event).op = .archive)
    (hnot : t ∉ A.map (·.id)) :
    ∀ maps : SMap SpoolTask × SMap SpoolStream,
      mapFind? (apply_events maps A).1 t = mapFind? maps.1 t := by
  induction A with
  | nil => intro maps; rfl
  | cons e rest ih =>
      intro maps
      have hop := hA e (List.mem_cons_self _ _)
      have hne : e.id ≠ t := by
        intro h
        exact hnot (by simp only [List.map_cons, List.mem_cons]; exact .inl h.symm)
      have hnotr : t ∉ rest.map (·.id) := by
        intro h
        exact hnot (by simp only [List.map_cons, List.mem_cons]; exact .inr h)
      have step : apply_events maps (e :: rest) =
          apply_events (apply_event maps.1 maps.2 e) rest := by
        simp [apply_events]
      rw [step, ih (fun x hx => hA x (List.mem_cons_of_mem _ hx)) hnotr
        (apply_event maps.1 maps.2 e)]
      exact mapFind?_apply_event_other maps.1 maps.2 e t hop hne

/-- After folding a block of Archive events with string `ref` payloads,
every id that block mentions is either absent from the tasks map or
carries a set `archived` marker. -/
theorem archived_after_archive_events (A : List Event)
    (hA : ∀ e ∈ A, (e : Event).op = .archive ∧
      ((e : Event).d.get "ref").bind Json.asStr ≠ none) :
    ∀ t, t ∈ A.map (·.id) →
    ∀ maps : SMap SpoolTask × SMap SpoolStream,
      mapFind? (apply_events maps A).1 t = none ∨
      ∃ task, mapFind? (apply_events maps A).1 t = some task ∧
        task.archived ≠ none := by
  induction A with
  | nil => intro t ht; simp at ht
  | cons e rest ih =>
      intro t ht maps
      have step : apply_events maps (e :: rest) =
          apply_events (apply_event maps.1 maps.2 e) rest := by
        simp [apply_events]
      obtain ⟨hop, href⟩ := hA e (List.mem_cons_self _ _)
      by_cases hmem : t ∈ rest.map (·.id)
      · rw [step]
        exact ih (fun x hx => hA x (List.mem_cons_of_mem _ hx)) t hmem _
      · have hte : e.id = t := by
          rcases (by simpa using ht :
              t = e.id ∨ ∃ a ∈ rest, (a : Event).id = t) with h | h
          · exact h.symm
          · obtain ⟨a, ha, hid⟩ := h
            exact absurd (List.mem_map.mpr ⟨a, ha, hid⟩) hmem
        rw [step, archive_events_preserve t rest
          (fun x hx => (hA x (List.mem_cons_of_mem _ hx)).1) hmem _]
        simp only [apply_event, hop, hte, mapFind?_mapModify_self]
        cases hfind : mapFind? maps.1 t with
        | none => exact .inl rfl
        | some task =>
            right
            refine ⟨applyArchive e.d e.ts task, rfl, ?_⟩
            simpa [applyArchive, strField] using href

theorem foldl_archives_dailies (groups : List (String × List SpoolTask))
    (ae : List (String × List Event)) :
    ∀ s : SpoolStore,
      (groups.foldl
        (fun acc p =>
          { acc with
            archives := appendFile acc.archives (p.1 ++ ".jsonl")
              ((p.2.map fun t => (mapFind? ae t.id).getD []).flatten) })
        s).dailies = s.dailies := by
  induction groups with
  | nil => intro s; rfl
  | cons g rest ih => intro s; simpa using ih _

/-- The month-file write fold never touches the daily files. -/
theorem archiveWrites_dailies (s : SpoolStore) (to_archive : List SpoolTask)
    (now : Int) (branch : String) :
    (archiveWrites s to_archive now branch).dailies =
      appendFile s.dailies (formatDay now ++ ".jsonl")
        (archiveEvents to_archive branch now) := by
  simp only [archiveWrites, appendDaily]
  rw [foldl_archives_dailies]


theorem insertSortedBy_of_all_false {α : Type} (le : α → α → Bool) (x : α)
    (m : List α) (h : ∀ y ∈ m, le x y = false) :
    insertSortedBy le x m = m ++ [x] := by
  induction m with
  | nil => rfl
  | cons z rest ih =>
      have hz := h z (List.mem_cons_self _ _)
      simp [insertSortedBy, hz,
        ih (fun y hy => h y (List.mem_cons_of_mem _ hy))]

/-- A stable sort puts a unique maximal-key file last. -/
theorem sortFiles_unique_max_last (x : String × List Event) :
    ∀ l : List (String × List Event), x ∈ l →
    (∀ y ∈ l, (y : String × List Event).1 < x.1 ∨ y = x) →
    (l.map Prod.fst).Nodup →
    ∃ rest, sortFiles l = rest ++ [x] := by
  intro l
  induction l with
  | nil => intro hmem _ _; simp at hmem
  | cons z l₀ ih =>
      intro hmem hother hnd
      have hnd₁ : (l₀.map Prod.fst).Nodup := (List.nodup_cons.mp hnd).2
      have hznotin : z.1 ∉ l₀.map Prod.fst := (List.nodup_cons.mp hnd).1
      by_cases hzx : z = x
      · subst hzx
        have hall : ∀ y ∈ l₀, (y : String × List Event).1 < z.1 := by
          intro y hy
          rcases hother y (List.mem_cons_of_mem _ hy) with h | h
          · exact h
          · exact absurd
              (List.mem_map.mpr ⟨y, hy, congrArg Prod.fst h⟩) hznotin
        refine ⟨sortFiles l₀, ?_⟩
        have hstep : sortFiles (z :: l₀) =
            insertSortedBy (fun a b => decide (a.1 ≤ b.1)) z
              (sortFiles l₀) := rfl
        rw [hstep]
        apply insertSortedBy_of_all_false
        intro y hy
        have hyl := (mem_sortListBy _ _ _).mp hy
        simp only [decide_eq_false_iff_not]
        exact not_le_of_lt (hall y hyl)
      · have hxl : x ∈ l₀ := by
          rcases List.mem_cons.mp hmem with h | h
          · exact absurd h.symm hzx
          · exact h
        have hzlt : z.1 < x.1 := by
          rcases hother z (List.mem_cons_self _ _) with h | h
          · exact h
          · exact absurd h hzx
        obtain ⟨rest, hrest⟩ := ih hxl
          (fun y hy => hother y (List.mem_cons_of_mem _ hy)) hnd₁
        refine ⟨insertSortedBy (fun a b => decide (a.1 ≤ b.1)) z rest, ?_⟩
        have hstep : sortFiles (z :: l₀) =
            insertSortedBy (fun a b => decide (a.1 ≤ b.1)) z
              (sortFiles l₀) := rfl
        rw [hstep, hrest]
        exact insertSortedBy_append_last _ z x rest
          (by simp only [decide_eq_true_eq]; exact le_of_lt hzlt)

/-- `open(create|append)` leaves some (possibly empty) previous content
in front of the appended events under the target name. -/
theorem appendFile_mem (files : List (String × List Event)) (name : String)
    (evs : List Event) :
    ∃ pre, (name, pre ++ evs) ∈ appendFile files name evs := by
  induction files with
  | nil => exact ⟨[], by simp [appendFile]⟩
  | cons f rest ih =>
      obtain ⟨n, es⟩ := f
      by_cases hn : n = name
      · subst hn
        exact ⟨es, by simp [appendFile]⟩
      · obtain ⟨pre, hpre⟩ := ih
        refine ⟨pre, ?_⟩
        simp only [appendFile, if_neg hn]
        exact List.mem_cons_of_mem _ hpre

theorem mem_keys_appendFile {files : List (String × List Event)}
    {name x : String} {evs : List Event}
    (h : x ∈ (appendFile files name evs).map Prod.fst) :
    x ∈ files.map Prod.fst ∨ x = name := by
  induction files with
  | nil => simpa [appendFile] using h
  | cons f rest ih =>
      obtain ⟨n, es⟩ := f
      by_cases hn : n = name
      · rw [show appendFile ((n, es) :: rest) name evs =
            (n, es ++ evs) :: rest from by simp [appendFile, hn]] at h
        simp only [List.map_cons, List.mem_cons] at h ⊢
        tauto
      · simp only [appendFile, if_neg hn, List.map_cons, List.mem_cons] at h ⊢
        rcases h with h | h
        · exact .inl (.inl h)
        · rcases ih h with h | h
          · exact .inl (.inr h)
          · exact .inr h

theorem appendFile_nodup {files : List (String × List Event)}
    {name : String} {evs : List Event}
    (h : (files.map Prod.fst).Nodup) :
    ((appendFile files name evs).map Prod.fst).Nodup := by
  induction files with
  | nil => simp [appendFile]
  | cons f rest ih =>
      obtain ⟨n, es⟩ := f
      have hrest := (List.nodup_cons.mp h).2
      have hnotin := (List.nodup_cons.mp h).1
      by_cases hn : n = name
      · simpa [appendFile, hn] using h
      · simp only [appendFile, if_neg hn, List.map_cons, List.nodup_cons]
        refine ⟨?_, ih hrest⟩
        intro hmem
        rcases mem_keys_appendFile hmem with hmem | hmem
        · exact hnotin hmem
        · exact hn hmem

/-- In a map with unique keys, two members under the same key agree. -/
theorem mem_unique_of_nodup {α : Type} {m : SMap α} {k : String} {a b : α}
    (hnd : NodupKeys m) (ha : (k, a) ∈ m) (hb : (k, b) ∈ m) : a = b := by
  have h1 := mapFind?_of_mem hnd ha
  have h2 := mapFind?_of_mem hnd hb
  rw [h1] at h2
  exact Option.some.inj h2

/-- C4: two consecutive non-dry `archive_tasks` runs with the same
`days` never return overlapping id sets — the first run appends an
Archive event per archived task, which flips `archived` on the next
replay and excludes the id from the second run's candidate set; and a
dry run returns the identical candidate id list to a non-dry run over
the same store while performing zero writes. The hypotheses say the
daily filenames are distinct (a directory listing) and none sorts after
today's — dated `YYYY-MM-DD.jsonl` names behave this way, including a
today file that already holds events. -/
theorem archive_tasks_idempotent (s : SpoolStore) (days : Nat)
    (now₁ now₂ : Int) (branch₁ branch₂ : String)
    (hnd₀ : (s.dailies.map Prod.fst).Nodup)
    (hnames : ∀ f ∈ s.dailies,
      (f : String × List Event).1 ≤ formatDay now₁ ++ ".jsonl") :
    (∀ t ∈ (archive_tasks s days false now₁ branch₁).1,
      t ∉ (archive_tasks (archive_tasks s days false now₁ branch₁).2
            days false now₂ branch₂).1) ∧
    (archive_tasks s days true now₁ branch₁).1 =
      (archive_tasks s days false now₁ branch₁).1 ∧
    (archive_tasks s days true now₁ branch₁).2 = s := by
  have hrun : ∀ (st : SpoolStore) (now : Int) (br : String) (dry : Bool),
      archive_tasks st days dry now br =
        (if (archiveCandidates st days now).isEmpty then ([], st)
         else ((archiveCandidates st days now).map (·.id),
           if dry then st
           else archiveWrites st (archiveCandidates st days now) now br)) := by
    intro st now br dry
    by_cases h : (archiveCandidates st days now).isEmpty <;>
      cases dry <;> simp [archive_tasks, h]
  refine ⟨?_, ?_, ?_⟩
  · intro t ht
    rw [hrun] at ht
    by_cases hemp : (archiveCandidates s days now₁).isEmpty
    · simp [hemp] at ht
    · simp only [hemp, if_false, Bool.false_eq_true] at ht
      rw [hrun, hrun]
      simp only [hemp, if_false, Bool.false_eq_true]
      intro hcontra
      by_cases hemp₂ : (archiveCandidates
          (archiveWrites s (archiveCandidates s days now₁) now₁ branch₁)
          days now₂).isEmpty
      · simp [hemp₂] at hcontra
      · simp only [hemp₂, if_false, Bool.false_eq_true] at hcontra
        -- names and abbreviations
        obtain ⟨task₁, htask₁, hid₁⟩ := List.mem_map.mp ht
        have htaskf₁ := (mem_sortListBy _ _ _).mp htask₁
        have helig₁ := (List.mem_filter.mp htaskf₁).2
        have hcomp₁ : ∃ c, task₁.completed = some c := by
          simp only [archiveEligible, Bool.and_eq_true] at helig₁
          cases hc : task₁.completed
          · rw [hc] at helig₁
            simp at helig₁
          · exact ⟨_, rfl⟩
        obtain ⟨c₁, hc₁⟩ := hcomp₁
        -- the archive event for t is in the appended block A
        have hevmem : archiveEventFor task₁.id (formatMonth c₁) branch₁ now₁
            ∈ archiveEvents (archiveCandidates s days now₁) branch₁ now₁ := by
          simp only [archiveEvents, List.mem_filterMap]
          exact ⟨task₁, htask₁, by rw [hc₁]; rfl⟩
        have htA : t ∈ (archiveEvents (archiveCandidates s days now₁)
            branch₁ now₁).map (·.id) :=
          List.mem_map.mpr ⟨_, hevmem, by simpa [archiveEventFor] using hid₁⟩
        have hAprops : ∀ e ∈ archiveEvents (archiveCandidates s days now₁)
            branch₁ now₁, (e : Event).op = .archive ∧
            ((e : Event).d.get "ref").bind Json.asStr ≠ none := by
          intro e he
          simp only [archiveEvents, List.mem_filterMap] at he
          obtain ⟨task, htask, hsome⟩ := he
          cases hcomp : task.completed with
          | none => rw [hcomp] at hsome; simp at hsome
          | some c =>
              rw [hcomp] at hsome
              simp only [Option.map] at hsome
              injection hsome with hsome
              subst hsome
              exact ⟨rfl, by simp [archiveEventFor, Json.get, Json.asStr]⟩
        -- the daily files of the written store: today's file (existing
        -- or fresh) carries the appended block at its end and, having
        -- the unique maximal name, sorts last
        have hdailies : (archiveWrites s (archiveCandidates s days now₁)
            now₁ branch₁).dailies =
            appendFile s.dailies (formatDay now₁ ++ ".jsonl")
              (archiveEvents (archiveCandidates s days now₁) branch₁ now₁) :=
          archiveWrites_dailies s _ now₁ branch₁
        obtain ⟨pre, hpre⟩ := appendFile_mem s.dailies
          (formatDay now₁ ++ ".jsonl")
          (archiveEvents (archiveCandidates s days now₁) branch₁ now₁)
        have hndA : ((appendFile s.dailies (formatDay now₁ ++ ".jsonl")
            (archiveEvents (archiveCandidates s days now₁) branch₁
              now₁)).map Prod.fst).Nodup := appendFile_nodup hnd₀
        have hother : ∀ y ∈ appendFile s.dailies
            (formatDay now₁ ++ ".jsonl")
            (archiveEvents (archiveCandidates s days now₁) branch₁ now₁),
            (y : String × List Event).1 < formatDay now₁ ++ ".jsonl" ∨
              y = (formatDay now₁ ++ ".jsonl", pre ++
                archiveEvents (archiveCandidates s days now₁) branch₁
                  now₁) := by
          intro y hy
          obtain ⟨y1, y2⟩ := y
          by_cases hkey : y1 = formatDay now₁ ++ ".jsonl"
          · subst hkey
            right
            rw [mem_unique_of_nodup hndA hy hpre]
          · left
            have hk : y1 ∈ (appendFile s.dailies
                (formatDay now₁ ++ ".jsonl")
                (archiveEvents (archiveCandidates s days now₁) branch₁
                  now₁)).map Prod.fst :=
              List.mem_map.mpr ⟨(y1, y2), hy, rfl⟩
            rcases mem_keys_appendFile hk with hk | hk
            · obtain ⟨f, hf, hf1⟩ := List.mem_map.mp hk
              exact lt_of_le_of_ne (hf1 ▸ hnames f hf) hkey
            · exact absurd hk hkey
        obtain ⟨rest, hsort⟩ := sortFiles_unique_max_last _ _ hpre hother hndA
        -- the replay sequence of the written store ends with A
        have hallE : allEvents (archiveWrites s
            (archiveCandidates s days now₁) now₁ branch₁) =
            (((sortFiles (archiveWrites s (archiveCandidates s days now₁)
                now₁ branch₁).archives).map Prod.snd).flatten ++
              ((rest.map Prod.snd).flatten ++ pre)) ++
            archiveEvents (archiveCandidates s days now₁) branch₁ now₁ := by
          unfold allEvents
          rw [hdailies, hsort]
          simp [List.append_assoc]
        -- the second materialization
        have htasks : (materialize (archiveWrites s
            (archiveCandidates s days now₁) now₁ branch₁) now₂).tasks =
            (apply_events (apply_events ([], [])
                (((sortFiles (archiveWrites s (archiveCandidates s days now₁)
                    now₁ branch₁).archives).map Prod.snd).flatten ++
                  ((rest.map Prod.snd).flatten ++ pre)))
              (archiveEvents (archiveCandidates s days now₁) branch₁ now₁)).1 := by
          simp only [materialize, hallE, apply_events_append]
        have hwf : TasksWF (materialize (archiveWrites s
            (archiveCandidates s days now₁) now₁ branch₁) now₂).tasks := by
          simp only [materialize]
          exact apply_events_wf _ _ (fun p hp => absurd hp (List.not_mem_nil p))
        have hnd : NodupKeys (materialize (archiveWrites s
            (archiveCandidates s days now₁) now₁ branch₁) now₂).tasks := by
          simp only [materialize]
          exact apply_events_nodup _ _ List.nodup_nil
        -- the second run's candidate for t
        obtain ⟨task₂, htask₂, hid₂⟩ := List.mem_map.mp hcontra
        have htaskf₂ := (mem_sortListBy _ _ _).mp htask₂
        have helig₂ := (List.mem_filter.mp htaskf₂).2
        have harchnone : task₂.archived = none := by
          simp only [archiveEligible, Bool.and_eq_true] at helig₂
          exact Option.isNone_iff_eq_none.mp helig₂.2
        have hvalmem := (List.mem_filter.mp htaskf₂).1
        obtain ⟨p, hp, hpsnd⟩ := List.mem_map.mp hvalmem
        have hkey : p.1 = t := by
          have hw := hwf p hp
          rw [hpsnd] at hw
          rw [← hw]
          exact hid₂
        have hpair : (t, task₂) ∈ (materialize (archiveWrites s
            (archiveCandidates s days now₁) now₁ branch₁) now₂).tasks := by
          have : p = (t, task₂) := by
            cases p
            simp only at hpsnd hkey
            rw [hpsnd, hkey]
          rw [← this]
          exact hp
        have hfind : mapFind? (materialize (archiveWrites s
            (archiveCandidates s days now₁) now₁ branch₁) now₂).tasks t =
            some task₂ := mapFind?_of_mem hnd hpair
        -- contradiction with the archived marker
        have harch := archived_after_archive_events _ hAprops t htA
          (apply_events ([], [])
            (((sortFiles (archiveWrites s (archiveCandidates s days now₁)
                now₁ branch₁).archives).map Prod.snd).flatten ++
              ((rest.map Prod.snd).flatten ++ pre)))
        rw [← htasks] at harch
        rcases harch with harch | ⟨task, hfind₂, harchsome⟩
        · rw [hfind] at harch
          exact Option.some_ne_none task₂ harch
        · rw [hfind] at hfind₂
          have : task₂ = task := by
            injection hfind₂
          rw [← this] at harchsome
          exact harchsome harchnone
  · rw [hrun, hrun]
    by_cases h : (archiveCandidates s days now₁).isEmpty <;> simp [h]
  · rw [hrun]
    by_cases h : (archiveCandidates s days now₁).isEmpty <;> simp [h]

/-- A one-task store: `t1` created and completed, its events living in
today's daily file (`1970-04-11.jsonl` is `formatDay 8640000`), so the
run appends its Archive event to an already existing file. -/
def cexArchStore : SpoolStore :=
  ⟨[], [("1970-04-11.jsonl",
    [⟨1, .create, "t1", 0, "@a", "main", Json.obj [("title", Json.str "A")]⟩,
     ⟨1, .complete, "t1", 1000, "@a", "main", Json.obj []⟩])]⟩

/-- Witness for C4: archiving `t1` on day 100 with a 30-day retention,
out of a store whose single daily file is today's own file — the second
run returns no overlap, and the dry run matches the non-dry candidate
list with the store untouched. -/
theorem archive_tasks_idempotent_witness :
    ((cexArchStore.dailies.map Prod.fst).Nodup ∧
     ∀ f ∈ cexArchStore.dailies,
      (f : String × List Event).1 ≤ formatDay 8640000 ++ ".jsonl") ∧
    ((∀ t ∈ (archive_tasks cexArchStore 30 false 8640000 "main").1,
      t ∉ (archive_tasks
            (archive_tasks cexArchStore 30 false 8640000 "main").2
            30 false 9000000 "other").1) ∧
    (archive_tasks cexArchStore 30 true 8640000 "main").1 =
      (archive_tasks cexArchStore 30 false 8640000 "main").1 ∧
    (archive_tasks cexArchStore 30 true 8640000 "main").2 = cexArchStore) :=
  have hnd : (cexArchStore.dailies.map Prod.fst).Nodup := by decide
  have hle : ∀ f ∈ cexArchStore.dailies,
      (f : String × List Event).1 ≤ formatDay 8640000 ++ ".jsonl" := by
    intro f hf
    simp only [cexArchStore, List.mem_singleton] at hf
    subst hf
    exact le_of_eq (by decide)
  ⟨⟨hnd, hle⟩,
   archive_tasks_idempotent cexArchStore 30 8640000 9000000 "main" "other"
     hnd hle⟩
